import Mathlib

/-!
# Memory-dependency shortening for loads (`cmd/compile/internal/ssa/optmem.go`)

A shallow embedding of the pass `optimizeMemoryDependency` and of its helpers
`findOptMem`, `memoryArg`, `valueJoint` and `addrSize`, followed by theorems about
them.

Go pointers `*Value` are modelled as natural numbers into a total heap
`Heap = Ptr → Value`; a `nil` result is `none`.  In-place mutation of the graph is
explicit heap passing.  Code that can abort returns `Except Err _`; the only
unbounded loop (the chain walk of `findOptMem`) takes a fuel argument and reports
`Err.outOfFuel` when it is exhausted.
-/

namespace optmem

/-- Pointers `*Value`: addresses into the heap of values. -/
abbrev Ptr := Nat

/-- The ways a run can abort: `log.Fatalf` in `addrSize`, a Go runtime panic
(index out of range, failed type assertion), or the walk exceeding its fuel. -/
inductive Err where
  | fatal
  | indexOutOfRange
  | typeAssertion
  | outOfFuel
  deriving DecidableEq, Repr

/-- Operation kinds.  Only `OpLoad` and `OpStore` are distinguished by the pass; the
others named here are the ones the tests build, `OpOther` stands for the rest of the
closed enumeration. -/
inductive Op where
  | OpLoad
  | OpStore
  | OpInitMem
  | OpSB
  | OpConst32
  | OpAddr
  | OpPhi
  | OpOther (code : Nat)
  deriving DecidableEq, Repr

/-- A type descriptor of package `types`, reduced to what the pass asks of it:
`Size()`. -/
structure TypeDesc where
  Size : Int
  deriving DecidableEq, Repr

/-- The auxiliary payload `Aux interface{}` of a value: absent, a `*types.Type`, or
something else. -/
inductive AuxVal where
  | none
  | typ (t : TypeDesc)
  | other (tag : Nat)
  deriving DecidableEq, Repr

/-- An SSA value: operation kind, result type (`v.Type`, here `Typ`), auxiliary
payload, operand pointers and the `ID` of the owning block (`v.Block.ID`). -/
structure Value where
  Op : Op
  Typ : TypeDesc
  Aux : AuxVal
  Args : List Ptr
  Block : Nat
  deriving DecidableEq, Repr

/-- The store of all values, addressed by pointer. -/
abbrev Heap := Ptr → Value

/-- A basic block: its `ID` and its values in program order. -/
structure Block where
  ID : Nat
  Values : List Ptr
  deriving DecidableEq, Repr

/-- A function: its blocks in order, and the heap holding every value. -/
structure Func where
  Blocks : List Block
  heap : Heap

/-- The disjointness oracle `disjoint(p1, n1, p2, n2)` of the rewrite rules, which
lives outside this file of the compiler: a parameter of the model. -/
abbrev Disjoint := Ptr → Int → Ptr → Int → Bool

/-- `memoryArg` returns the memory argument for load and store operations.
For other operations it returns nil.  `v.Args[len(v.Args)-1]` is out of range when
`v` has no operands. -/
def memoryArg (v : Value) : Except Err (Option Ptr) :=
  match v.Op with
  | Op.OpLoad | Op.OpStore =>
    match v.Args.getLast? with
    | some a => Except.ok (some a)
    | none => Except.error Err.indexOutOfRange
  | _ => Except.ok none

/-- `addrSize` returns address and size of load and store values; any other
operation is fatal. -/
def addrSize (v : Value) : Except Err (Ptr × Int) :=
  match v.Op with
  | Op.OpLoad =>
    match v.Args.head? with
    | some a => Except.ok (a, v.Typ.Size)
    | none => Except.error Err.indexOutOfRange
  | Op.OpStore =>
    match v.Args.head? with
    | some a =>
      match v.Aux with
      | AuxVal.typ t => Except.ok (a, t.Size)
      | _ => Except.error Err.typeAssertion
    | none => Except.error Err.indexOutOfRange
  | _ => Except.error Err.fatal

/-- `valueJoint` tests if two values share the same memory address. -/
def valueJoint (d : Disjoint) (v1 v2 : Value) : Except Err Bool := do
  let (a1, s1) ← addrSize v1
  let (a2, s2) ← addrSize v2
  pure (!d a1 s1 a2 s2)

/-- The loop of `findOptMem`, entered with `v`, `m` (`none` is `nil`) and the
candidate `optMem` recorded so far.  One unit of fuel is spent per executed loop
body. -/
def findOptMemLoop (d : Disjoint) (h : Heap) (load : Ptr) :
    Nat → Ptr → Option Ptr → Option Ptr → Except Err (Option Ptr)
  | _, _, none, optMem => Except.ok optMem
  | 0, _, some _, _ => Except.error Err.outOfFuel
  | fuel + 1, v, some m, optMem => do
    let stop ← if (h v).Op = Op.OpStore then valueJoint d (h load) (h v) else pure false
    if stop then
      pure optMem
    else if (h load).Block ≠ (h m).Block then
      pure optMem
    else
      let m' ← memoryArg (h m)
      findOptMemLoop d h load fuel m m' (some m)

/-- `findOptMem` returns an optimal value that the load memory argument can have
without any memory conflicts. -/
def findOptMem (d : Disjoint) (fuel : Nat) (h : Heap) (load : Ptr) :
    Except Err (Option Ptr) := do
  let m ← memoryArg (h load)
  findOptMemLoop d h load fuel load m none

/-- Modelled from the spec: `Value.SetArg(i, w)` is declared outside this file; the
pass "rewrites that operand to reference `m`".  Operand `i` of the value at `v` is
replaced by `w`; an index outside the operand list is a runtime panic. -/
def SetArg (h : Heap) (v : Ptr) (i : Nat) (w : Ptr) : Except Err Heap :=
  if i < (h v).Args.length then
    Except.ok (fun p => if p = v then { h v with Args := (h v).Args.set i w } else h p)
  else
    Except.error Err.indexOutOfRange

/-- The body of the inner loop of `optimizeMemoryDependency` for the value `v`. -/
def visitValue (d : Disjoint) (fuel : Nat) (h : Heap) (v : Ptr) : Except Err Heap :=
  if (h v).Op ≠ Op.OpLoad then
    pure h
  else do
    let m ← findOptMem d fuel h v
    match m with
    | none => pure h
    | some m =>
      let cur ← memoryArg (h v)
      if some m ≠ cur then SetArg h v 1 m else pure h

/-- The inner loop `for j := len(b.Values) - 1; j >= 0; j--`: the values after the
head are visited first, the head last. -/
def visitValues (d : Disjoint) (fuel : Nat) : List Ptr → Heap → Except Err Heap
  | [], h => pure h
  | v :: vs, h => do
    let h1 ← visitValues d fuel vs h
    visitValue d fuel h1 v

/-- The outer loop `for i := len(f.Blocks) - 1; i >= 0; i--`. -/
def visitBlocks (d : Disjoint) (fuel : Nat) : List Block → Heap → Except Err Heap
  | [], h => pure h
  | b :: bs, h => do
    let h1 ← visitBlocks d fuel bs h
    visitValues d fuel b.Values h1

/-- `optimizeMemoryDependency` tries to modify load operations memory argument for
earlier values, which are not creating any memory conflicts. -/
def optimizeMemoryDependency (d : Disjoint) (fuel : Nat) (f : Func) : Except Err Func := do
  let h ← visitBlocks d fuel f.Blocks f.heap
  pure { f with heap := h }

/-! ## Vocabulary of the properties -/

deriving instance DecidableEq for Except

/-- The memory operand of a value as a plain option: the last operand of a Load or
Store, nothing for any other kind. -/
def memoryOperand (v : Value) : Option Ptr :=
  match memoryArg v with
  | Except.ok r => r
  | Except.error _ => none

/-- The memory chain of `v`: `memChain h v n` is the value reached from `v` by
following the memory operand `n` times in the graph `h`, when there is one. -/
def memChain (h : Heap) (v : Ptr) : Nat → Option Ptr
  | 0 => some v
  | n + 1 => (memoryOperand (h v)).bind (fun m => memChain h m n)

/-- All values of a list of blocks, in program order. -/
def allValues : List Block → List Ptr
  | [] => []
  | b :: bs => b.Values ++ allValues bs

/-- All values owned by the blocks of `f`, in program order. -/
def Func.values (f : Func) : List Ptr := allValues f.Blocks

/-- Definition before use in one value list: when the memory operand of the value at
position `j` is owned by the same block (same `Block.ID`), it occurs before
position `j`. -/
def operandEarlier (h : Heap) (vals : List Ptr) (j : Nat) : Prop :=
  match vals[j]? with
  | none => True
  | some v =>
    match memoryOperand (h v) with
    | none => True
    | some m => (h m).Block = (h v).Block → m ∈ vals.take j

instance (h : Heap) (vals : List Ptr) (j : Nat) : Decidable (operandEarlier h vals j) := by
  unfold operandEarlier
  split
  · infer_instance
  · split <;> infer_instance

/-- Definition before use along a whole value list. -/
def chainOrdered (h : Heap) (vals : List Ptr) : Prop :=
  ∀ j ∈ List.range vals.length, operandEarlier h vals j

instance (h : Heap) (vals : List Ptr) : Decidable (chainOrdered h vals) := by
  unfold chainOrdered
  infer_instance

/-- The memory-chain invariant: every Load/Store's same-block memory operand appears
earlier in its block's value list. -/
def memChainInvariant (f : Func) : Prop :=
  ∀ b ∈ f.Blocks, chainOrdered f.heap b.Values

instance (f : Func) : Decidable (memChainInvariant f) := by
  unfold memChainInvariant
  infer_instance

/-- The operand convention of the operation kinds: a Load has the operands
`[address, memory]`, a Store has `[address, value, memory]` and carries a type as
auxiliary payload. -/
def operandConvention (v : Value) : Bool :=
  match v.Op with
  | Op.OpLoad => v.Args.length == 2
  | Op.OpStore => v.Args.length == 3 && (match v.Aux with | AuxVal.typ _ => true | _ => false)
  | _ => true

/-- Well-formed input of the pass, as the data model has it: blocks own their values,
so every value is listed once and in one block only; the listed values follow the
operand convention of their operation kind; and the memory-chain invariant holds. -/
def WellFormed (f : Func) : Prop :=
  f.values.Nodup ∧ (∀ p ∈ f.values, operandConvention (f.heap p) = true) ∧ memChainInvariant f

instance (f : Func) : Decidable (WellFormed f) := by
  unfold WellFormed
  infer_instance

/-- Fuel that covers the longest chain walk the pass can make inside one block. -/
def EnoughFuel (f : Func) (fuel : Nat) : Prop :=
  ∀ b ∈ f.Blocks, b.Values.length ≤ fuel

instance (f : Func) (fuel : Nat) : Decidable (EnoughFuel f fuel) := by
  unfold EnoughFuel
  infer_instance

/-- The walk of `load` may step over `c`: when `c` is a Store, the oracle judges it
disjoint from `load`. -/
def Passes (d : Disjoint) (h : Heap) (load c : Ptr) : Prop :=
  (h c).Op = Op.OpStore → valueJoint d (h load) (h c) = Except.ok false

/-- The walk of `load` has reached `v` after `k` steps of the memory chain: every
chain value up to `v` is owned by the block of `load`, and every chain value before
`v` could be stepped over. -/
structure Walked (d : Disjoint) (h : Heap) (load : Ptr) (k : Nat) (v : Ptr) : Prop where
  reach : memChain h load k = some v
  block : ∀ i c, 1 ≤ i → i ≤ k → memChain h load i = some c → (h c).Block = (h load).Block
  clear : ∀ i c, 1 ≤ i → i < k → memChain h load i = some c → Passes d h load c

/-- The walk of `load` cannot go beyond `M`: `M` is a chain origin, or a Store the
oracle does not prove disjoint from `load`, or its memory operand is owned by another
block. -/
def StopAt (d : Disjoint) (h : Heap) (load M : Ptr) : Prop :=
  memoryArg (h M) = Except.ok none ∨
  ((h M).Op = Op.OpStore ∧ valueJoint d (h load) (h M) = Except.ok true) ∨
  ∃ m, memoryArg (h M) = Except.ok (some m) ∧ (h m).Block ≠ (h load).Block

/-- The alias test at the head of the loop body of `findOptMem`:
`v.Op == OpStore && valueJoint(load, v)`. -/
def stopCheck (d : Disjoint) (h : Heap) (load v : Ptr) : Except Err Bool :=
  if (h v).Op = Op.OpStore then valueJoint d (h load) (h v) else pure false

/-- The value found at `p` once the rewrite computed by `findOptMem` on the graph
`h` has been applied to it. -/
def rewrittenValue (d : Disjoint) (fuel : Nat) (h : Heap) (p : Ptr) : Value :=
  if (h p).Op = Op.OpLoad then
    match findOptMem d fuel h p with
    | Except.ok (some m) =>
      if memoryOperand (h p) = some m then h p else { h p with Args := (h p).Args.set 1 m }
    | _ => h p
  else h p

/-! ## Graphs of the test suite -/

/-- The type `int64` of the tests. -/
def i64 : TypeDesc := ⟨8⟩

/-- What the heap holds at addresses that carry no value of the function. -/
def noValue : Value := ⟨Op.OpOther 0, ⟨0⟩, AuxVal.none, [], 0⟩

/-- A heap holding the listed values at the addresses `0, 1, 2, ...`. -/
def mkHeap (vs : List Value) : Heap := fun p => vs.getD p noValue

/-- A mock oracle: two regions are proven disjoint exactly when their address values
differ. -/
def dAddr : Disjoint := fun a1 _ a2 _ => a1 != a2

/-- An oracle that proves nothing disjoint. -/
def dNever : Disjoint := fun _ _ _ _ => false

/-- The graph of the test "late optimization check": `start`, `sb`, `const`, `addr1`,
`addr2`, `store` (at `addr1`), `load1` (at `addr2`, after `store`), `load2` (at
`addr1`, after `load1`). -/
def lateHeap : Heap := mkHeap [
  ⟨Op.OpInitMem, ⟨0⟩, AuxVal.none, [], 1⟩,
  ⟨Op.OpSB, ⟨8⟩, AuxVal.none, [], 1⟩,
  ⟨Op.OpConst32, ⟨8⟩, AuxVal.none, [], 1⟩,
  ⟨Op.OpAddr, ⟨8⟩, AuxVal.other 0, [1], 1⟩,
  ⟨Op.OpAddr, ⟨8⟩, AuxVal.other 8, [1], 1⟩,
  ⟨Op.OpStore, ⟨0⟩, AuxVal.typ i64, [3, 2, 0], 1⟩,
  ⟨Op.OpLoad, i64, AuxVal.none, [4, 5], 1⟩,
  ⟨Op.OpLoad, i64, AuxVal.none, [3, 6], 1⟩]

/-- The function of the test "late optimization check". -/
def lateFunc : Func := ⟨[⟨1, [0, 1, 2, 3, 4, 5, 6, 7]⟩], lateHeap⟩

/-- The graph of the test "optimize a single load": `start`, `sb`, `addr1`, `addr2`,
`load1` (after `start`), `load2` (after `load1`). -/
def loadsHeap : Heap := mkHeap [
  ⟨Op.OpInitMem, ⟨0⟩, AuxVal.none, [], 1⟩,
  ⟨Op.OpSB, ⟨8⟩, AuxVal.none, [], 1⟩,
  ⟨Op.OpAddr, ⟨8⟩, AuxVal.other 0, [1], 1⟩,
  ⟨Op.OpAddr, ⟨8⟩, AuxVal.other 0, [1], 1⟩,
  ⟨Op.OpLoad, i64, AuxVal.none, [2, 0], 1⟩,
  ⟨Op.OpLoad, i64, AuxVal.none, [3, 4], 1⟩]

/-- The function of the test "optimize a single load". -/
def loadsFunc : Func := ⟨[⟨1, [0, 1, 2, 3, 4, 5]⟩], loadsHeap⟩

/-- Two blocks: `start`, `sb`, `const`, `addr`, `store` in block 1; `load1` (after
`store`) and `load2` (after `load1`), both at the address of `store`, in block 2. -/
def crossHeap : Heap := mkHeap [
  ⟨Op.OpInitMem, ⟨0⟩, AuxVal.none, [], 1⟩,
  ⟨Op.OpSB, ⟨8⟩, AuxVal.none, [], 1⟩,
  ⟨Op.OpConst32, ⟨8⟩, AuxVal.none, [], 1⟩,
  ⟨Op.OpAddr, ⟨8⟩, AuxVal.other 0, [1], 1⟩,
  ⟨Op.OpStore, ⟨0⟩, AuxVal.typ i64, [3, 2, 0], 1⟩,
  ⟨Op.OpLoad, i64, AuxVal.none, [3, 4], 2⟩,
  ⟨Op.OpLoad, i64, AuxVal.none, [3, 5], 2⟩]

/-- The two-block function over `crossHeap`. -/
def crossFunc : Func := ⟨[⟨1, [0, 1, 2, 3, 4]⟩, ⟨2, [5, 6]⟩], crossHeap⟩

/-- The graph of the test "mix change": `start`, `sb`, `const`, `addr1` .. `addr4`,
`store1` (at `addr1`), `store2` (at `addr2`, after `store1`), `load1` (at `addr3`,
after `store2`), `load2` (at `addr4`, after `store1`). -/
def mixHeap : Heap := mkHeap [
  ⟨Op.OpInitMem, ⟨0⟩, AuxVal.none, [], 1⟩,
  ⟨Op.OpSB, ⟨8⟩, AuxVal.none, [], 1⟩,
  ⟨Op.OpConst32, ⟨8⟩, AuxVal.none, [], 1⟩,
  ⟨Op.OpAddr, ⟨8⟩, AuxVal.other 0, [1], 1⟩,
  ⟨Op.OpAddr, ⟨8⟩, AuxVal.other 8, [1], 1⟩,
  ⟨Op.OpAddr, ⟨8⟩, AuxVal.other 16, [1], 1⟩,
  ⟨Op.OpAddr, ⟨8⟩, AuxVal.other 24, [1], 1⟩,
  ⟨Op.OpStore, ⟨0⟩, AuxVal.typ i64, [3, 2, 0], 1⟩,
  ⟨Op.OpStore, ⟨0⟩, AuxVal.typ i64, [4, 2, 7], 1⟩,
  ⟨Op.OpLoad, i64, AuxVal.none, [5, 8], 1⟩,
  ⟨Op.OpLoad, i64, AuxVal.none, [6, 7], 1⟩]

/-- The function of the test "mix change". -/
def mixFunc : Func := ⟨[⟨1, [0, 1, 2, 3, 4, 5, 6, 7, 8, 9, 10]⟩], mixHeap⟩

/-! ## The pass as one simultaneous rewrite -/

/-- First half of the all-at-once reading of the pass: `findOptMem(r)` for every Load
`r` of the list, each computed on the one unmodified graph `h`. -/
def computeAll (d : Disjoint) (fuel : Nat) (h : Heap) :
    List Ptr → Except Err (List (Ptr × Option Ptr))
  | [] => pure []
  | r :: rs =>
    if (h r).Op = Op.OpLoad then do
      let m ← findOptMem d fuel h r
      let rest ← computeAll d fuel h rs
      pure ((r, m) :: rest)
    else
      computeAll d fuel h rs

/-- Second half: every computed rewrite applied to the unmodified graph at once.  A
Load whose result is present and differs from its memory operand gets operand 1
replaced by the result. -/
def applyAll (h : Heap) (plan : List (Ptr × Option Ptr)) : Heap := fun p =>
  match plan.lookup p with
  | some (some m) =>
    if memoryOperand (h p) = some m then h p else { h p with Args := (h p).Args.set 1 m }
  | _ => h p

/-- The pass read as "compute `findOptMem(r)` for every Load `r` on the unmodified
input graph, then apply all rewrites at once". -/
def rewriteAllAtOnce (d : Disjoint) (fuel : Nat) (f : Func) : Except Err Func := do
  let plan ← computeAll d fuel f.heap f.values
  pure { f with heap := applyAll f.heap plan }

/-- The Store `W` is the nearest Store on the memory chain that starts at `orig`: it
is reached after `k` steps, and no chain value before it is a Store. -/
def NearestStore (h : Heap) (orig : Ptr) (k : Nat) (W : Ptr) : Prop :=
  memChain h orig k = some W ∧ (h W).Op = Op.OpStore ∧
    ∀ i, i < k → ∀ c ∈ memChain h orig i, (h c).Op ≠ Op.OpStore

instance (h : Heap) (orig : Ptr) (k : Nat) (W : Ptr) : Decidable (NearestStore h orig k W) := by
  unfold NearestStore
  infer_instance


/-! ## The chain walk -/

theorem bind_ok_eq {α β : Type} (a : α) (g : α → Except Err β) :
    (Except.ok a >>= g) = g a := rfl

theorem bind_error_eq {α β : Type} (e : Err) (g : α → Except Err β) :
    ((Except.error e : Except Err α) >>= g) = Except.error e := rfl

theorem pure_eq_ok {α : Type} (a : α) : (pure a : Except Err α) = Except.ok a := rfl

theorem memoryOperand_of_memoryArg {v : Value} {m : Option Ptr}
    (hm : memoryArg v = Except.ok m) : memoryOperand v = m := by
  simp [memoryOperand, hm]

theorem memoryArg_load_ok {v : Value} {m : Option Ptr} (hop : v.Op = Op.OpLoad)
    (hm : memoryArg v = Except.ok m) : ∃ a, m = some a ∧ v.Args.getLast? = some a := by
  unfold memoryArg at hm
  rw [hop] at hm
  simp only at hm
  cases hl : v.Args.getLast? with
  | none => rw [hl] at hm; simp at hm
  | some a =>
    rw [hl] at hm
    simp only [Except.ok.injEq] at hm
    exact ⟨a, hm.symm, rfl⟩

theorem memChain_succ_right (h : Heap) (n : Nat) : ∀ v,
    memChain h v (n + 1) = (memChain h v n).bind (fun c => memoryOperand (h c)) := by
  induction n with
  | zero =>
    intro v
    simp [memChain]
  | succ n ih =>
    intro v
    rw [memChain]
    cases hm : memoryOperand (h v) with
    | none => simp [memChain, hm]
    | some m =>
      simp only [Option.some_bind]
      rw [ih m]
      conv_rhs => rw [memChain, hm]
      simp

theorem loop_none (d : Disjoint) (h : Heap) (load : Ptr) (fuel : Nat) (v : Ptr)
    (opt : Option Ptr) : findOptMemLoop d h load fuel v none opt = Except.ok opt := by
  cases fuel <;> rfl

theorem loop_succ (d : Disjoint) (h : Heap) (load : Ptr) (fuel : Nat) (v m : Ptr)
    (opt : Option Ptr) :
    findOptMemLoop d h load (fuel + 1) v (some m) opt =
      ((if (h v).Op = Op.OpStore then valueJoint d (h load) (h v) else pure false) >>=
        fun stop =>
          if stop = true then pure opt
          else if (h load).Block ≠ (h m).Block then pure opt
          else memoryArg (h m) >>= fun m' => findOptMemLoop d h load fuel m m' (some m)) := by
  rw [findOptMemLoop]
  split <;> rfl



theorem loop_step (d : Disjoint) (h : Heap) (load : Ptr) (fuel : Nat) (v m : Ptr)
    (opt : Option Ptr) :
    findOptMemLoop d h load (fuel + 1) v (some m) opt =
      (stopCheck d h load v >>= fun stop =>
          if stop = true then pure opt
          else if (h load).Block ≠ (h m).Block then pure opt
          else memoryArg (h m) >>= fun m' => findOptMemLoop d h load fuel m m' (some m)) :=
  loop_succ d h load fuel v m opt

theorem stopCheck_true {d : Disjoint} {h : Heap} {load v : Ptr}
    (hs : stopCheck d h load v = Except.ok true) :
    (h v).Op = Op.OpStore ∧ valueJoint d (h load) (h v) = Except.ok true := by
  unfold stopCheck at hs
  by_cases hop : (h v).Op = Op.OpStore
  · rw [if_pos hop] at hs
    exact ⟨hop, hs⟩
  · rw [if_neg hop] at hs
    cases hs

theorem stopCheck_false {d : Disjoint} {h : Heap} {load v : Ptr}
    (hs : stopCheck d h load v = Except.ok false) : Passes d h load v := by
  intro hop
  unfold stopCheck at hs
  rw [if_pos hop] at hs
  exact hs

theorem stopCheck_not_store {d : Disjoint} {h : Heap} {load v : Ptr}
    (hop : (h v).Op ≠ Op.OpStore) : stopCheck d h load v = Except.ok false := by
  unfold stopCheck
  rw [if_neg hop]
  rfl

theorem Walked.first {d : Disjoint} {h : Heap} {load m : Ptr}
    (hm : memoryArg (h load) = Except.ok (some m))
    (hb : (h m).Block = (h load).Block) : Walked d h load 1 m := by
  have hreach : memChain h load 1 = some m := by
    simp [memChain, memoryOperand_of_memoryArg hm]
  refine ⟨hreach, ?_, ?_⟩
  · intro i c h1 h2 hc
    have hi : i = 1 := by omega
    subst hi
    rw [hreach] at hc
    cases hc
    exact hb
  · intro i c h1 h2
    omega

theorem Walked.step {d : Disjoint} {h : Heap} {load v m : Ptr} {k : Nat}
    (hw : Walked d h load k v) (hm : memoryArg (h v) = Except.ok (some m))
    (hb : (h m).Block = (h load).Block) (hp : Passes d h load v) :
    Walked d h load (k + 1) m := by
  have hreach : memChain h load (k + 1) = some m := by
    rw [memChain_succ_right, hw.reach]
    simp [memoryOperand_of_memoryArg hm]
  refine ⟨hreach, ?_, ?_⟩
  · intro i c h1 h2 hc
    by_cases hi : i ≤ k
    · exact hw.block i c h1 hi hc
    · have hi' : i = k + 1 := by omega
      subst hi'
      rw [hreach] at hc
      cases hc
      exact hb
  · intro i c h1 h2 hc
    by_cases hi : i < k
    · exact hw.clear i c h1 hi hc
    · have hi' : i = k := by omega
      subst hi'
      rw [hw.reach] at hc
      cases hc
      exact hp

theorem loop_sound (d : Disjoint) (h : Heap) (load : Ptr) :
    ∀ (fuel k : Nat) (v : Ptr) (m res : Option Ptr),
      Walked d h load k v → memoryArg (h v) = Except.ok m →
      findOptMemLoop d h load fuel v m (some v) = Except.ok res →
      ∃ n M, k ≤ n ∧ res = some M ∧ Walked d h load n M ∧ StopAt d h load M := by
  intro fuel
  induction fuel with
  | zero =>
    intro k v m res hw hm hres
    cases m with
    | none =>
      rw [loop_none] at hres
      cases hres
      exact ⟨k, v, le_refl k, rfl, hw, Or.inl hm⟩
    | some m0 => cases hres
  | succ fuel ih =>
    intro k v m res hw hm hres
    cases m with
    | none =>
      rw [loop_none] at hres
      cases hres
      exact ⟨k, v, le_refl k, rfl, hw, Or.inl hm⟩
    | some m0 =>
      rw [loop_step] at hres
      cases hs : stopCheck d h load v with
      | error e => rw [hs] at hres; cases hres
      | ok stop =>
        rw [hs, bind_ok_eq] at hres
        cases stop with
        | true =>
          simp only [if_true, pure_eq_ok, Except.ok.injEq] at hres
          exact ⟨k, v, le_refl k, hres.symm, hw, Or.inr (Or.inl (stopCheck_true hs))⟩
        | false =>
          simp only [Bool.false_eq_true, if_false] at hres
          by_cases hb : (h load).Block ≠ (h m0).Block
          · rw [if_pos hb] at hres
            cases hres
            exact ⟨k, v, le_refl k, rfl, hw, Or.inr (Or.inr ⟨m0, hm, fun e => hb e.symm⟩)⟩
          · rw [if_neg hb] at hres
            have hb' : (h m0).Block = (h load).Block := by
              by_contra hne
              exact hb (fun e => hne e.symm)
            cases hm' : memoryArg (h m0) with
            | error e => rw [hm'] at hres; cases hres
            | ok m' =>
              rw [hm', bind_ok_eq] at hres
              obtain ⟨n, M, hn, hM, hwn, hstop⟩ :=
                ih (k + 1) m0 m' res (hw.step hm hb' (stopCheck_false hs)) hm' hres
              exact ⟨n, M, by omega, hM, hwn, hstop⟩

/-- What a returning `findOptMem` has computed for a Load: nothing when the memory
operand is owned by another block, otherwise the last value `M` of a walked chain
prefix beyond which the walk cannot go. -/
theorem findOptMem_sound {d : Disjoint} {fuel : Nat} {h : Heap} {load : Ptr}
    {res : Option Ptr} (hop : (h load).Op = Op.OpLoad)
    (hres : findOptMem d fuel h load = Except.ok res) :
    ∃ m, memoryArg (h load) = Except.ok (some m) ∧
      ((res = none ∧ (h m).Block ≠ (h load).Block) ∨
        ((h m).Block = (h load).Block ∧
          ∃ n M, 1 ≤ n ∧ res = some M ∧ Walked d h load n M ∧ StopAt d h load M)) := by
  unfold findOptMem at hres
  cases hm : memoryArg (h load) with
  | error e => rw [hm] at hres; cases hres
  | ok m =>
    rw [hm, bind_ok_eq] at hres
    obtain ⟨m0, rfl, -⟩ := memoryArg_load_ok hop hm
    refine ⟨m0, rfl, ?_⟩
    cases fuel with
    | zero => cases hres
    | succ fuel =>
      rw [loop_step, stopCheck_not_store (by rw [hop]; decide), bind_ok_eq] at hres
      simp only [Bool.false_eq_true, if_false] at hres
      by_cases hb : (h load).Block ≠ (h m0).Block
      · rw [if_pos hb] at hres
        cases hres
        exact Or.inl ⟨rfl, fun e => hb e.symm⟩
      · rw [if_neg hb] at hres
        have hb' : (h m0).Block = (h load).Block := by
          by_contra hne
          exact hb (fun e => hne e.symm)
        cases hm' : memoryArg (h m0) with
        | error e => rw [hm'] at hres; cases hres
        | ok m' =>
          rw [hm', bind_ok_eq] at hres
          obtain ⟨n, M, hn, hM, hwn, hstop⟩ :=
            loop_sound d h load fuel 1 m0 m' res (Walked.first hm hb') hm' hres
          exact Or.inr ⟨hb', n, M, hn, hM, hwn, hstop⟩

theorem chainOrdered_step {h : Heap} {vals : List Ptr} {i : Nat} {v m : Ptr}
    (hord : chainOrdered h vals) (hv : vals[i]? = some v)
    (hm : memoryArg (h v) = Except.ok (some m)) (hb : (h m).Block = (h v).Block) :
    ∃ k, k < i ∧ vals[k]? = some m := by
  have hi : i < vals.length := by
    by_contra hge
    rw [List.getElem?_eq_none (by omega)] at hv
    cases hv
  have h1 := hord i (List.mem_range.mpr hi)
  unfold operandEarlier at h1
  rw [hv] at h1
  simp only [memoryOperand_of_memoryArg hm] at h1
  have h2 := h1 hb
  rw [List.mem_take_iff_getElem] at h2
  obtain ⟨k, hk, hkm⟩ := h2
  refine ⟨k, by omega, ?_⟩
  rw [List.getElem?_eq_getElem (by omega)]
  simp [hkm]

theorem mem_of_getElem_some {vals : List Ptr} {i : Nat} {v : Ptr} (hv : vals[i]? = some v) :
    v ∈ vals := by
  rw [List.getElem?_eq_some] at hv
  obtain ⟨hi, rfl⟩ := hv
  exact List.getElem_mem hi

theorem memoryArg_total {v : Value} (hc : operandConvention v = true) :
    ∃ m, memoryArg v = Except.ok m := by
  unfold operandConvention at hc
  unfold memoryArg
  cases hop : v.Op <;> rw [hop] at hc <;> simp only at hc ⊢
  · cases hl : v.Args with
    | nil => rw [hl] at hc; simp at hc
    | cons a as => simp [List.getLast?_cons]
  · cases hl : v.Args with
    | nil => rw [hl] at hc; simp at hc
    | cons a as => simp [List.getLast?_cons]
  all_goals exact ⟨none, rfl⟩

theorem addrSize_load_total {v : Value} (hop : v.Op = Op.OpLoad)
    (hc : operandConvention v = true) : ∃ r, addrSize v = Except.ok r := by
  unfold operandConvention at hc
  unfold addrSize
  rw [hop] at hc ⊢
  simp only at hc ⊢
  cases hl : v.Args with
  | nil => rw [hl] at hc; simp at hc
  | cons a as => simp

theorem addrSize_store_total {v : Value} (hop : v.Op = Op.OpStore)
    (hc : operandConvention v = true) : ∃ r, addrSize v = Except.ok r := by
  unfold operandConvention at hc
  unfold addrSize
  rw [hop] at hc ⊢
  simp only at hc ⊢
  cases hl : v.Args with
  | nil => rw [hl] at hc; simp at hc
  | cons a as =>
    cases ha : v.Aux with
    | typ t => simp
    | none => rw [ha] at hc; simp at hc
    | other n => rw [ha] at hc; simp at hc

theorem stopCheck_total {d : Disjoint} {h : Heap} {load v : Ptr}
    (hlop : (h load).Op = Op.OpLoad) (hlc : operandConvention (h load) = true)
    (hvc : operandConvention (h v) = true) : ∃ b, stopCheck d h load v = Except.ok b := by
  unfold stopCheck
  by_cases hop : (h v).Op = Op.OpStore
  · rw [if_pos hop]
    obtain ⟨r1, h1⟩ := addrSize_load_total hlop hlc
    obtain ⟨r2, h2⟩ := addrSize_store_total hop hvc
    unfold valueJoint
    rw [h1, h2]
    exact ⟨_, rfl⟩
  · rw [if_neg hop]
    exact ⟨false, rfl⟩

theorem loop_total (d : Disjoint) (h : Heap) (load : Ptr) (vals : List Ptr)
    (hord : chainOrdered h vals) (hconv : ∀ p ∈ vals, operandConvention (h p) = true)
    (hlop : (h load).Op = Op.OpLoad) (hlmem : load ∈ vals) :
    ∀ (fuel i : Nat) (v : Ptr) (m opt : Option Ptr),
      vals[i]? = some v → (h v).Block = (h load).Block → memoryArg (h v) = Except.ok m →
      i < fuel → ∃ res, findOptMemLoop d h load fuel v m opt = Except.ok res := by
  intro fuel
  induction fuel with
  | zero => intro i v m opt _ _ _ hi; omega
  | succ fuel ih =>
    intro i v m opt hv hvb hm hi
    cases m with
    | none => exact ⟨opt, loop_none _ _ _ _ _ _⟩
    | some m0 =>
      rw [loop_step]
      obtain ⟨b, hb⟩ := stopCheck_total (d := d) hlop (hconv load hlmem)
        (hconv v (mem_of_getElem_some hv))
      rw [hb, bind_ok_eq]
      cases b with
      | true => exact ⟨opt, rfl⟩
      | false =>
        simp only [Bool.false_eq_true, if_false]
        by_cases hblk : (h load).Block ≠ (h m0).Block
        · rw [if_pos hblk]
          exact ⟨opt, rfl⟩
        · rw [if_neg hblk]
          have hb' : (h m0).Block = (h load).Block := by
            by_contra hne
            exact hblk (fun e => hne e.symm)
          obtain ⟨k, hk, hkm⟩ := chainOrdered_step hord hv hm (hb'.trans hvb.symm)
          obtain ⟨m', hm'⟩ := memoryArg_total (hconv m0 (mem_of_getElem_some hkm))
          rw [hm', bind_ok_eq]
          exact ih k m0 m' (some m0) hkm hb' hm' (by omega)

theorem findOptMem_total (d : Disjoint) (h : Heap) (vals : List Ptr) (fuel : Nat)
    (hord : chainOrdered h vals) (hconv : ∀ p ∈ vals, operandConvention (h p) = true)
    (hfuel : vals.length ≤ fuel) {load : Ptr} (hlmem : load ∈ vals)
    (hlop : (h load).Op = Op.OpLoad) :
    ∃ res, findOptMem d fuel h load = Except.ok res := by
  obtain ⟨m, hm⟩ := memoryArg_total (hconv load hlmem)
  obtain ⟨j, hj, hjv⟩ := List.getElem_of_mem hlmem
  have hv : vals[j]? = some load := by
    rw [List.getElem?_eq_getElem hj, hjv]
  unfold findOptMem
  rw [hm, bind_ok_eq]
  exact loop_total d h load vals hord hconv hlop hlmem fuel j load m none hv rfl hm (by omega)

theorem loop_congr (d : Disjoint) (h h' : Heap) (load : Ptr) (P : Ptr → Prop)
    (hB : ∀ p, (h' p).Block = (h p).Block) (hP : ∀ p, P p → h' p = h p)
    (hclosed : ∀ p m, P p → (h p).Block = (h load).Block →
      memoryArg (h p) = Except.ok (some m) → (h m).Block = (h load).Block → P m)
    (hl : P load) :
    ∀ (fuel : Nat) (v : Ptr) (m opt : Option Ptr),
      P v → (h v).Block = (h load).Block → memoryArg (h v) = Except.ok m →
      findOptMemLoop d h' load fuel v m opt = findOptMemLoop d h load fuel v m opt := by
  intro fuel
  induction fuel with
  | zero =>
    intro v m opt _ _ _
    cases m <;> rfl
  | succ fuel ih =>
    intro v m opt hv hvb hm
    cases m with
    | none => rw [loop_none, loop_none]
    | some m0 =>
      rw [loop_step, loop_step]
      have e1 : stopCheck d h' load v = stopCheck d h load v := by
        unfold stopCheck
        rw [hP v hv, hP load hl]
      rw [e1, hB load, hB m0]
      congr 1
      funext stop
      by_cases hs : stop = true
      · rw [if_pos hs, if_pos hs]
      · rw [if_neg hs, if_neg hs]
        by_cases hblk : (h load).Block ≠ (h m0).Block
        · rw [if_pos hblk, if_pos hblk]
        · rw [if_neg hblk, if_neg hblk]
          have hb' : (h m0).Block = (h load).Block := by
            by_contra hne
            exact hblk (fun e => hne e.symm)
          have hPm : P m0 := hclosed v m0 hv hvb hm hb'
          rw [hP m0 hPm]
          cases hm' : memoryArg (h m0) with
          | error e => rfl
          | ok m' =>
            rw [bind_ok_eq, bind_ok_eq]
            exact ih m0 m' (some m0) hPm hb' hm'

theorem findOptMem_congr (d : Disjoint) (h h' : Heap) (load : Ptr) (P : Ptr → Prop)
    (hB : ∀ p, (h' p).Block = (h p).Block) (hP : ∀ p, P p → h' p = h p)
    (hclosed : ∀ p m, P p → (h p).Block = (h load).Block →
      memoryArg (h p) = Except.ok (some m) → (h m).Block = (h load).Block → P m)
    (hl : P load) (fuel : Nat) :
    findOptMem d fuel h' load = findOptMem d fuel h load := by
  unfold findOptMem
  rw [hP load hl]
  cases hm : memoryArg (h load) with
  | error e => rfl
  | ok m =>
    rw [bind_ok_eq, bind_ok_eq]
    exact loop_congr d h h' load P hB hP hclosed hl fuel load m none hl rfl hm

theorem rewrittenValue_block (d : Disjoint) (fuel : Nat) (h : Heap) (p : Ptr) :
    (rewrittenValue d fuel h p).Block = (h p).Block := by
  unfold rewrittenValue
  split
  · split
    · split <;> rfl
    · rfl
  · rfl

theorem load_args_two {v : Value} (hop : v.Op = Op.OpLoad)
    (hc : operandConvention v = true) : ∃ a m, v.Args = [a, m] := by
  unfold operandConvention at hc
  rw [hop] at hc
  simp only [beq_iff_eq] at hc
  match hv : v.Args, hc with
  | [a, m], _ => exact ⟨a, m, rfl⟩

theorem memoryArg_load_two {v : Value} {a m : Ptr} (hop : v.Op = Op.OpLoad)
    (hargs : v.Args = [a, m]) : memoryArg v = Except.ok (some m) := by
  unfold memoryArg
  rw [hop]
  simp [hargs]

/-- One visit of a well-formed Load whose walk sees the original graph. -/
theorem visitValue_load (d : Disjoint) (fuel : Nat) (h0 h : Heap) (v : Ptr)
    (hv : h v = h0 v) (hop : (h0 v).Op = Op.OpLoad)
    (hc : operandConvention (h0 v) = true) {res : Option Ptr}
    (hres : findOptMem d fuel h0 v = Except.ok res)
    (hsame : findOptMem d fuel h v = findOptMem d fuel h0 v) :
    visitValue d fuel h v =
      Except.ok (fun p => if p = v then rewrittenValue d fuel h0 v else h p) := by
  obtain ⟨a, m0, hargs⟩ := load_args_two hop hc
  have hm := memoryArg_load_two hop hargs
  unfold visitValue
  rw [hv, if_neg (by rw [hop]; simp), hsame, hres, bind_ok_eq]
  cases res with
  | none =>
    have hrv : rewrittenValue d fuel h0 v = h0 v := by
      unfold rewrittenValue
      rw [if_pos hop, hres]
    simp only [pure_eq_ok, Except.ok.injEq]
    funext p
    by_cases hp : p = v
    · rw [if_pos hp, hrv, hp, hv]
    · rw [if_neg hp]
  | some m =>
    have hrv : rewrittenValue d fuel h0 v =
        if memoryOperand (h0 v) = some m then h0 v
        else { h0 v with Args := (h0 v).Args.set 1 m } := by
      unfold rewrittenValue
      rw [if_pos hop, hres]
    simp only [hm, bind_ok_eq]
    rw [hrv]
    simp only [memoryOperand_of_memoryArg hm]
    by_cases hmm : m0 = m
    · subst hmm
      simp only [ne_eq, not_true_eq_false, if_false, pure_eq_ok, Except.ok.injEq, if_true]
      funext p
      by_cases hp : p = v
      · rw [if_pos hp, hp, hv]
      · rw [if_neg hp]
    · have hne : some m ≠ some m0 := fun e => hmm (Option.some.inj e).symm
      have hne' : ¬ (some m0 = some m) := fun e => hmm (Option.some.inj e)
      rw [if_pos hne, if_neg hne']
      unfold SetArg
      rw [hv, hargs]
      simp

theorem visitValues_cons (d : Disjoint) (fuel : Nat) (v : Ptr) (vs : List Ptr) (h : Heap) :
    visitValues d fuel (v :: vs) h = (visitValues d fuel vs h >>= fun h1 => visitValue d fuel h1 v) :=
  rfl

theorem visitBlocks_cons (d : Disjoint) (fuel : Nat) (b : Block) (bs : List Block) (h : Heap) :
    visitBlocks d fuel (b :: bs) h =
      (visitBlocks d fuel bs h >>= fun h1 => visitValues d fuel b.Values h1) :=
  rfl

/-- The reverse sweep over a suffix of one well-formed value list: it completes, leaves
every value outside the suffix alone, and gives every value of the suffix the rewrite
computed on the original graph `h0`. -/
theorem visitValues_spec (d : Disjoint) (fuel : Nat) (h0 : Heap) (vals : List Ptr)
    (hnd : vals.Nodup) (hord : chainOrdered h0 vals)
    (hconv : ∀ p ∈ vals, operandConvention (h0 p) = true) (hfuel : vals.length ≤ fuel) :
    ∀ (suf pre : List Ptr), vals = pre ++ suf → ∀ h : Heap,
      (∀ p, (h p).Block = (h0 p).Block) → (∀ p ∈ vals, h p = h0 p) →
      ∃ h', visitValues d fuel suf h = Except.ok h' ∧ (∀ p, p ∉ suf → h' p = h p) ∧
        (∀ p ∈ suf, h' p = rewrittenValue d fuel h0 p) := by
  intro suf
  induction suf with
  | nil =>
    intro pre _ h _ _
    exact ⟨h, rfl, fun _ _ => rfl, fun p hp => absurd hp (List.not_mem_nil p)⟩
  | cons v vs ih =>
    intro pre hsplit h hB hagree
    have hsplit' : vals = (pre ++ [v]) ++ vs := by simp [hsplit]
    obtain ⟨h1, hrun, hout, hin⟩ := ih (pre ++ [v]) hsplit' h hB hagree
    have hnd' : ((pre ++ [v]) ++ vs).Nodup := hsplit' ▸ hnd
    have hdisj : ∀ p ∈ pre ++ [v], p ∉ vs := fun p hp hq =>
      (List.nodup_append.mp hnd').2.2 hp hq
    have hvmem : v ∈ vals := by rw [hsplit]; simp
    have hvvs : v ∉ vs := hdisj v (by simp)
    have h1v : h1 v = h0 v := by rw [hout v hvvs, hagree v hvmem]
    rw [visitValues_cons, hrun, bind_ok_eq]
    by_cases hop : (h0 v).Op = Op.OpLoad
    · -- the walk of `v` only meets values before `v`, which are still untouched
      have hB1 : ∀ p, (h1 p).Block = (h0 p).Block := by
        intro p
        by_cases hp : p ∈ vs
        · rw [hin p hp, rewrittenValue_block]
        · rw [hout p hp, hB p]
      have hP : ∀ p, p ∈ pre ++ [v] → h1 p = h0 p := by
        intro p hp
        rw [hout p (hdisj p hp)]
        exact hagree p (by rw [hsplit']; exact List.mem_append_left _ hp)
      have hclosed : ∀ p m, p ∈ pre ++ [v] → (h0 p).Block = (h0 v).Block →
          memoryArg (h0 p) = Except.ok (some m) → (h0 m).Block = (h0 v).Block →
          m ∈ pre ++ [v] := by
        intro p m hp hpb hm hmb
        obtain ⟨i, hi, hip⟩ := List.getElem_of_mem hp
        have hiv : vals[i]? = some p := by
          rw [hsplit', List.getElem?_append_left hi, List.getElem?_eq_getElem hi, hip]
        obtain ⟨k, hk, hkm⟩ := chainOrdered_step hord hiv hm (hmb.trans hpb.symm)
        have hk' : k < (pre ++ [v]).length := by omega
        rw [hsplit', List.getElem?_append_left hk'] at hkm
        exact mem_of_getElem_some hkm
      have hsame : findOptMem d fuel h1 v = findOptMem d fuel h0 v :=
        findOptMem_congr d h0 h1 v (fun p => p ∈ pre ++ [v]) hB1 hP hclosed (by simp) fuel
      obtain ⟨res, hres⟩ := findOptMem_total d h0 vals fuel hord hconv hfuel hvmem hop
      rw [visitValue_load d fuel h0 h1 v h1v hop (hconv v hvmem) hres hsame]
      refine ⟨_, rfl, ?_, ?_⟩
      · intro p hp
        have hpv : p ≠ v := fun e => hp (by rw [e]; simp)
        have hpvs : p ∉ vs := fun e => hp (List.mem_cons_of_mem _ e)
        simp only [if_neg hpv]
        exact hout p hpvs
      · intro p hp
        by_cases hpv : p = v
        · subst hpv
          simp only [if_true]
        · simp only [if_neg hpv]
          rcases List.mem_cons.mp hp with e | e
          · exact absurd e hpv
          · exact hin p e
    · have hstep : visitValue d fuel h1 v = Except.ok h1 := by
        unfold visitValue
        rw [h1v, if_pos hop]
        rfl
      rw [hstep]
      refine ⟨h1, rfl, ?_, ?_⟩
      · intro p hp
        exact hout p (fun e => hp (List.mem_cons_of_mem _ e))
      · intro p hp
        rcases List.mem_cons.mp hp with e | e
        · rw [e, h1v]
          unfold rewrittenValue
          rw [if_neg hop]
        · exact hin p e

/-- The reverse sweep over a list of well-formed blocks, started on the original
graph. -/
theorem visitBlocks_spec (d : Disjoint) (fuel : Nat) (h0 : Heap) :
    ∀ bs : List Block, (allValues bs).Nodup →
      (∀ p ∈ allValues bs, operandConvention (h0 p) = true) →
      (∀ b ∈ bs, chainOrdered h0 b.Values) → (∀ b ∈ bs, b.Values.length ≤ fuel) →
      ∃ h', visitBlocks d fuel bs h0 = Except.ok h' ∧
        (∀ p, p ∉ allValues bs → h' p = h0 p) ∧
        (∀ p ∈ allValues bs, h' p = rewrittenValue d fuel h0 p) := by
  intro bs
  induction bs with
  | nil =>
    intro _ _ _ _
    exact ⟨h0, rfl, fun _ _ => rfl, fun p hp => absurd hp (List.not_mem_nil p)⟩
  | cons b bs ih =>
    intro hnd hconv hord hfuel
    have hnd' : (b.Values ++ allValues bs).Nodup := hnd
    obtain ⟨hndb, hndbs, hdisj⟩ := List.nodup_append.mp hnd'
    obtain ⟨h1, hrun, hout, hin⟩ := ih hndbs
      (fun p hp => hconv p (List.mem_append_right _ hp))
      (fun c hc => hord c (List.mem_cons_of_mem _ hc))
      (fun c hc => hfuel c (List.mem_cons_of_mem _ hc))
    have hB1 : ∀ p, (h1 p).Block = (h0 p).Block := by
      intro p
      by_cases hp : p ∈ allValues bs
      · rw [hin p hp, rewrittenValue_block]
      · rw [hout p hp]
    have hagree : ∀ p ∈ b.Values, h1 p = h0 p := fun p hp =>
      hout p (fun hq => hdisj hp hq)
    obtain ⟨h2, hrun2, hout2, hin2⟩ :=
      visitValues_spec d fuel h0 b.Values hndb (hord b (List.mem_cons_self _ _))
        (fun p hp => hconv p (List.mem_append_left _ hp)) (hfuel b (List.mem_cons_self _ _))
        b.Values [] rfl h1 hB1 hagree
    rw [visitBlocks_cons, hrun, bind_ok_eq, hrun2]
    refine ⟨h2, rfl, ?_, ?_⟩
    · intro p hp
      have hpb : p ∉ b.Values := fun e => hp (List.mem_append_left _ e)
      have hpbs : p ∉ allValues bs := fun e => hp (List.mem_append_right _ e)
      rw [hout2 p hpb, hout p hpbs]
    · intro p hp
      rcases List.mem_append.mp hp with e | e
      · exact hin2 p e
      · have hpb : p ∉ b.Values := fun e' => hdisj e' e
        rw [hout2 p hpb, hin p e]

/-- The pass on a well-formed function: it completes, keeps the block list, and the
resulting graph holds, at every owned value, the rewrite computed on the input
graph. -/
theorem pass_spec (d : Disjoint) (fuel : Nat) (f : Func) (hwf : WellFormed f)
    (hfuel : EnoughFuel f fuel) :
    ∃ f', optimizeMemoryDependency d fuel f = Except.ok f' ∧ f'.Blocks = f.Blocks ∧
      (∀ p, p ∉ f.values → f'.heap p = f.heap p) ∧
      (∀ p ∈ f.values, f'.heap p = rewrittenValue d fuel f.heap p) := by
  obtain ⟨hnd, hconv, hord⟩ := hwf
  obtain ⟨h', hrun, hout, hin⟩ := visitBlocks_spec d fuel f.heap f.Blocks hnd hconv hord hfuel
  refine ⟨{ f with heap := h' }, ?_, rfl, hout, hin⟩
  unfold optimizeMemoryDependency
  rw [hrun]
  rfl

/-! ## Chains, positions and the pass at the Loads -/

theorem memoryArg_of_memoryOperand {v : Value} {m : Ptr}
    (hm : memoryOperand v = some m) : memoryArg v = Except.ok (some m) := by
  unfold memoryOperand at hm
  cases h : memoryArg v with
  | error e => rw [h] at hm; cases hm
  | ok r => rw [h] at hm; simp only at hm; rw [hm]

theorem memChain_succ_left {h : Heap} {v m : Ptr} (hm : memoryArg (h v) = Except.ok (some m))
    (n : Nat) : memChain h v (n + 1) = memChain h m n := by
  rw [memChain, memoryOperand_of_memoryArg hm]
  rfl

/-- A chain defined at `n + 1` is defined at `n`, and the later value is the memory
operand of the earlier one. -/
theorem memChain_pred {h : Heap} {v c : Ptr} {n : Nat}
    (hc : memChain h v (n + 1) = some c) :
    ∃ b, memChain h v n = some b ∧ memoryArg (h b) = Except.ok (some c) := by
  rw [memChain_succ_right] at hc
  cases hb : memChain h v n with
  | none => rw [hb] at hc; cases hc
  | some b =>
    rw [hb] at hc
    exact ⟨b, rfl, memoryArg_of_memoryOperand hc⟩

theorem memChain_defined_le {h : Heap} {v c : Ptr} {n : Nat}
    (hc : memChain h v n = some c) : ∀ i, i ≤ n → ∃ b, memChain h v i = some b := by
  induction n generalizing c with
  | zero =>
    intro i hi
    have : i = 0 := by omega
    subst this
    exact ⟨c, hc⟩
  | succ n ih =>
    intro i hi
    by_cases hin : i = n + 1
    · subst hin
      exact ⟨c, hc⟩
    · obtain ⟨b, hb, -⟩ := memChain_pred hc
      exact ih hb i (by omega)

/-- The walk of a Load stops at one place only. -/
theorem walk_unique {d : Disjoint} {h : Heap} {load M M' : Ptr} {n n' : Nat}
    (hn : 1 ≤ n) (hn' : 1 ≤ n')
    (hw : Walked d h load n M) (hs : StopAt d h load M)
    (hw' : Walked d h load n' M') (hs' : StopAt d h load M') : n = n' ∧ M = M' := by
  have key : ∀ {a b : Nat} {A B : Ptr}, Walked d h load a A → StopAt d h load A →
      Walked d h load b B → 1 ≤ a → ¬ a < b := by
    intro a b A B hwa hsa hwb ha hab
    obtain ⟨c, hc⟩ := memChain_defined_le hwb.reach (a + 1) (by omega)
    obtain ⟨A', hA', hAc⟩ := memChain_pred hc
    rw [hwa.reach] at hA'
    cases hA'
    rcases hsa with h1 | ⟨hst, hj⟩ | ⟨m, hm, hmb⟩
    · rw [h1] at hAc
      cases hAc
    · have := hwb.clear a A ha hab hwa.reach hst
      rw [this] at hj
      cases hj
    · have e := hm.symm.trans hAc
      simp only [Except.ok.injEq, Option.some.injEq] at e
      subst e
      exact hmb (hwb.block (a + 1) m (by omega) (by omega) hc)
  have h1 := key hw hs hw' hn
  have h2 := key hw' hs' hw hn'
  have e : n = n' := by omega
  subst e
  exact ⟨rfl, Option.some.inj (hw.reach.symm.trans hw'.reach)⟩

theorem mem_allValues {bs : List Block} {p : Ptr} :
    p ∈ allValues bs ↔ ∃ b ∈ bs, p ∈ b.Values := by
  induction bs with
  | nil => simp [allValues]
  | cons b bs ih =>
    simp only [allValues, List.mem_append, ih, List.mem_cons]
    constructor
    · rintro (hp | ⟨c, hc, hp⟩)
      · exact ⟨b, Or.inl rfl, hp⟩
      · exact ⟨c, Or.inr hc, hp⟩
    · rintro ⟨c, hc | hc, hp⟩
      · exact Or.inl (hc ▸ hp)
      · exact Or.inr ⟨c, hc, hp⟩

theorem rewrittenValue_fields (d : Disjoint) (fuel : Nat) (h : Heap) (p : Ptr) :
    (rewrittenValue d fuel h p).Op = (h p).Op ∧ (rewrittenValue d fuel h p).Typ = (h p).Typ ∧
      (rewrittenValue d fuel h p).Aux = (h p).Aux := by
  unfold rewrittenValue
  split
  · split
    · split <;> exact ⟨rfl, rfl, rfl⟩
    · exact ⟨rfl, rfl, rfl⟩
  · exact ⟨rfl, rfl, rfl⟩

theorem rewrittenValue_not_load (d : Disjoint) (fuel : Nat) (h : Heap) (p : Ptr)
    (hop : (h p).Op ≠ Op.OpLoad) : rewrittenValue d fuel h p = h p := by
  unfold rewrittenValue
  rw [if_neg hop]

/-- The pass on a well-formed function, read off at the Loads: each keeps its address
operand, and its memory operand is either the original one, owned by another block,
or the value at which the walk on the input graph stops. -/
theorem pass_walk (d : Disjoint) (fuel : Nat) (f : Func) (hwf : WellFormed f)
    (hfuel : EnoughFuel f fuel) :
    ∃ f', optimizeMemoryDependency d fuel f = Except.ok f' ∧ f'.Blocks = f.Blocks ∧
      (∀ p, (f'.heap p).Op = (f.heap p).Op ∧ (f'.heap p).Block = (f.heap p).Block ∧
        (f'.heap p).Typ = (f.heap p).Typ ∧ (f'.heap p).Aux = (f.heap p).Aux) ∧
      (∀ p, p ∉ f.values ∨ (f.heap p).Op ≠ Op.OpLoad → f'.heap p = f.heap p) ∧
      ∀ r ∈ f.values, (f.heap r).Op = Op.OpLoad →
        ∃ a orig new, (f.heap r).Args = [a, orig] ∧ (f'.heap r).Args = [a, new] ∧
          ((new = orig ∧ (f.heap orig).Block ≠ (f.heap r).Block) ∨
            ∃ n, 1 ≤ n ∧ Walked d f.heap r n new ∧ StopAt d f.heap r new) := by
  obtain ⟨f', hrun, hblocks, hout, hin⟩ := pass_spec d fuel f hwf hfuel
  obtain ⟨hnd, hconv, hord⟩ := hwf
  refine ⟨f', hrun, hblocks, ?_, ?_, ?_⟩
  · intro p
    by_cases hp : p ∈ f.values
    · rw [hin p hp]
      obtain ⟨h1, h2, h3⟩ := rewrittenValue_fields d fuel f.heap p
      exact ⟨h1, rewrittenValue_block d fuel f.heap p, h2, h3⟩
    · rw [hout p hp]
      exact ⟨rfl, rfl, rfl, rfl⟩
  · intro p hp
    by_cases hpv : p ∈ f.values
    · rcases hp with hp | hp
      · exact absurd hpv hp
      · rw [hin p hpv, rewrittenValue_not_load d fuel f.heap p hp]
    · exact hout p hpv
  · intro r hr hop
    obtain ⟨b, hb, hrb⟩ := mem_allValues.mp hr
    have hconvb : ∀ p ∈ b.Values, operandConvention (f.heap p) = true := fun p hp =>
      hconv p (mem_allValues.mpr ⟨b, hb, hp⟩)
    obtain ⟨res, hres⟩ :=
      findOptMem_total d f.heap b.Values fuel (hord b hb) hconvb (hfuel b hb) hrb hop
    obtain ⟨a, orig, hargs⟩ := load_args_two hop (hconv r hr)
    have hm := memoryArg_load_two hop hargs
    obtain ⟨m, hm', hcases⟩ := findOptMem_sound hop hres
    have e := hm.symm.trans hm'
    simp only [Except.ok.injEq, Option.some.injEq] at e
    subst e
    rw [hin r hr]
    unfold rewrittenValue
    rw [if_pos hop, hres]
    rcases hcases with ⟨hnone, hblk⟩ | ⟨hblk, n, M, hn, hM, hw, hs⟩
    · subst hnone
      exact ⟨a, orig, orig, hargs, hargs, Or.inl ⟨rfl, hblk⟩⟩
    · subst hM
      refine ⟨a, orig, M, hargs, ?_, Or.inr ⟨n, hn, hw, hs⟩⟩
      simp only [memoryOperand_of_memoryArg hm]
      by_cases hoM : orig = M
      · subst hoM
        simp [hargs]
      · have : ¬ (some orig = some M) := fun e => hoM (Option.some.inj e)
        rw [if_neg this]
        simp [hargs]

/-! ## The claims -/

/-- Reading a component off the result of a run that is known to complete. -/
theorem result_eval {α : Type} {run : Except Err Func} {f' : Func} (g : Func → α) {x : α}
    (hrun : run = Except.ok f') (hx : run.map g = Except.ok x) : g f' = x := by
  subst hrun
  exact Except.ok.inj hx

/-- C1 (P2 non-aliasing).  On a well-formed function the pass completes, and for every
Load `r`: if the pass leaves `r` with memory operand `M`, then every Store on the
pre-pass memory chain of `r` strictly between the original memory operand of `r` and
(the first occurrence of) `M` is judged disjoint from `r` by the oracle, that is,
`valueJoint(r, Store)` is false. -/
theorem C1_non_aliasing (d : Disjoint) (fuel : Nat) (f : Func) (hwf : WellFormed f)
    (hfuel : EnoughFuel f fuel) :
    ∃ f', optimizeMemoryDependency d fuel f = Except.ok f' ∧
      ∀ r ∈ f.values, (f.heap r).Op = Op.OpLoad →
        ∀ orig M, memoryArg (f.heap r) = Except.ok (some orig) →
          memoryArg (f'.heap r) = Except.ok (some M) →
          ∀ n, memChain f.heap orig n = some M →
            (∀ k, k < n → memChain f.heap orig k ≠ some M) →
            ∀ i W, 0 < i → i < n → memChain f.heap orig i = some W →
              (f.heap W).Op = Op.OpStore →
              valueJoint d (f.heap r) (f.heap W) = Except.ok false := by
  obtain ⟨f', hrun, -, hfields, -, hloads⟩ := pass_walk d fuel f hwf hfuel
  refine ⟨f', hrun, ?_⟩
  intro r hr hop orig M horig hM n hn hfirst i W hi0 hin hW hst
  obtain ⟨a, orig', new, hargs, hargs', hcases⟩ := hloads r hr hop
  have hop' : (f'.heap r).Op = Op.OpLoad := by rw [(hfields r).1, hop]
  have e1 := (memoryArg_load_two hop hargs).symm.trans horig
  have e2 := (memoryArg_load_two hop' hargs').symm.trans hM
  simp only [Except.ok.injEq, Option.some.injEq] at e1 e2
  subst e1
  subst e2
  rcases hcases with ⟨hsame, -⟩ | ⟨n0, hn0, hw, -⟩
  · exfalso
    subst hsame
    exact hfirst 0 (by omega) rfl
  · obtain ⟨n1, rfl⟩ : ∃ n1, n0 = n1 + 1 := ⟨n0 - 1, by omega⟩
    have hreach := hw.reach
    rw [memChain_succ_left horig] at hreach
    have hle : n ≤ n1 := by
      by_contra hlt
      exact hfirst n1 (by omega) hreach
    have hWr : memChain f.heap r (i + 1) = some W := by
      rw [memChain_succ_left horig]
      exact hW
    exact hw.clear (i + 1) W (by omega) (by omega) hWr hst

/-- An instance of C1: in the test graph "mix change" the Load 9 ends with the initial
memory 0 as memory operand; the Store 7 lies strictly between its original operand 8
and 0, and is judged disjoint from it. -/
theorem C1_non_aliasing_witness :
    WellFormed mixFunc ∧ EnoughFuel mixFunc 11 ∧
    ∃ f', optimizeMemoryDependency dAddr 11 mixFunc = Except.ok f' ∧
      memoryArg (f'.heap 9) = Except.ok (some 0) ∧
      valueJoint dAddr (mixFunc.heap 9) (mixFunc.heap 7) = Except.ok false := by
  refine ⟨by decide, by decide, ?_⟩
  obtain ⟨f', hrun, hall⟩ := C1_non_aliasing dAddr 11 mixFunc (by decide) (by decide)
  have hnew : memoryArg (f'.heap 9) = Except.ok (some 0) :=
    result_eval (fun g => memoryArg (g.heap 9)) hrun (by decide)
  exact ⟨f', hrun, hnew,
    hall 9 (by decide) (by decide) 8 0 (by decide) hnew 2 (by decide) (by decide) 1 7
      (by decide) (by decide) (by decide) (by decide)⟩

/-- C2 (P1 soundness).  On a well-formed function the pass completes, and for every
Load `r` the memory operand of `r` after the pass is either its original memory
operand or a value obtained from the original operand by following `memoryArg` one or
more times in the pre-pass graph. -/
theorem C2_soundness (d : Disjoint) (fuel : Nat) (f : Func) (hwf : WellFormed f)
    (hfuel : EnoughFuel f fuel) :
    ∃ f', optimizeMemoryDependency d fuel f = Except.ok f' ∧
      ∀ r ∈ f.values, (f.heap r).Op = Op.OpLoad →
        ∃ orig new, memoryArg (f.heap r) = Except.ok (some orig) ∧
          memoryArg (f'.heap r) = Except.ok (some new) ∧
          (new = orig ∨ ∃ n, 1 ≤ n ∧ memChain f.heap orig n = some new) := by
  obtain ⟨f', hrun, -, hfields, -, hloads⟩ := pass_walk d fuel f hwf hfuel
  refine ⟨f', hrun, ?_⟩
  intro r hr hop
  obtain ⟨a, orig, new, hargs, hargs', hcases⟩ := hloads r hr hop
  have hop' : (f'.heap r).Op = Op.OpLoad := by rw [(hfields r).1, hop]
  have horig := memoryArg_load_two hop hargs
  refine ⟨orig, new, horig, memoryArg_load_two hop' hargs', ?_⟩
  rcases hcases with ⟨hsame, -⟩ | ⟨n0, hn0, hw, -⟩
  · exact Or.inl hsame
  · obtain ⟨n1, rfl⟩ : ∃ n1, n0 = n1 + 1 := ⟨n0 - 1, by omega⟩
    have hreach := hw.reach
    rw [memChain_succ_left horig] at hreach
    by_cases h0 : n1 = 0
    · subst h0
      simp only [memChain, Option.some.injEq] at hreach
      exact Or.inl hreach.symm
    · exact Or.inr ⟨n1, by omega, hreach⟩

/-- An instance of C2: the Load 9 of the test graph "mix change". -/
theorem C2_soundness_witness :
    WellFormed mixFunc ∧ EnoughFuel mixFunc 11 ∧
    ∃ f', optimizeMemoryDependency dAddr 11 mixFunc = Except.ok f' ∧
      ∃ orig new, memoryArg (mixFunc.heap 9) = Except.ok (some orig) ∧
        memoryArg (f'.heap 9) = Except.ok (some new) ∧
        (new = orig ∨ ∃ n, 1 ≤ n ∧ memChain mixFunc.heap orig n = some new) := by
  refine ⟨by decide, by decide, ?_⟩
  obtain ⟨f', hrun, hall⟩ := C2_soundness dAddr 11 mixFunc (by decide) (by decide)
  exact ⟨f', hrun, hall 9 (by decide) (by decide)⟩

theorem applyAll_cons_ne (h : Heap) (r : Ptr) (res : Option Ptr)
    (rest : List (Ptr × Option Ptr)) (p : Ptr) (hp : p ≠ r) :
    applyAll h ((r, res) :: rest) p = applyAll h rest p := by
  unfold applyAll
  have : (p == r) = false := by simpa using hp
  simp only [List.lookup_cons, this]

theorem applyAll_cons_self (h : Heap) (r : Ptr) (res : Option Ptr)
    (rest : List (Ptr × Option Ptr)) :
    applyAll h ((r, res) :: rest) r =
      match res with
      | some m =>
        if memoryOperand (h r) = some m then h r else { h r with Args := (h r).Args.set 1 m }
      | none => h r := by
  unfold applyAll
  simp only [List.lookup_cons, beq_self_eq_true]
  cases res <;> rfl

/-- Computing every rewrite on the unmodified graph and applying them together gives,
at every listed value, the rewrite of that value. -/
theorem computeAll_spec (d : Disjoint) (fuel : Nat) (h : Heap) :
    ∀ rs : List Ptr,
      (∀ r ∈ rs, (h r).Op = Op.OpLoad → ∃ res, findOptMem d fuel h r = Except.ok res) →
      ∃ plan, computeAll d fuel h rs = Except.ok plan ∧
        (∀ p ∈ rs, applyAll h plan p = rewrittenValue d fuel h p) ∧
        (∀ p, p ∉ rs → applyAll h plan p = h p) := by
  intro rs
  induction rs with
  | nil =>
    intro _
    exact ⟨[], rfl, fun p hp => absurd hp (List.not_mem_nil p), fun p _ => rfl⟩
  | cons r rs ih =>
    intro htot
    obtain ⟨rest, hrest, hin, hout⟩ := ih (fun q hq => htot q (List.mem_cons_of_mem _ hq))
    by_cases hop : (h r).Op = Op.OpLoad
    · obtain ⟨res, hres⟩ := htot r (List.mem_cons_self _ _) hop
      have hself : applyAll h ((r, res) :: rest) r = rewrittenValue d fuel h r := by
        rw [applyAll_cons_self]
        unfold rewrittenValue
        rw [if_pos hop, hres]
        cases res <;> rfl
      refine ⟨(r, res) :: rest, ?_, ?_, ?_⟩
      · rw [computeAll, if_pos hop, hres, bind_ok_eq, hrest, bind_ok_eq]
        rfl
      · intro p hp
        by_cases hpr : p = r
        · rw [hpr]
          exact hself
        · rw [applyAll_cons_ne h r res rest p hpr]
          rcases List.mem_cons.mp hp with e | e
          · exact absurd e hpr
          · exact hin p e
      · intro p hp
        have hpr : p ≠ r := fun e => hp (by rw [e]; exact List.mem_cons_self _ _)
        rw [applyAll_cons_ne h r res rest p hpr]
        exact hout p (fun e => hp (List.mem_cons_of_mem _ e))
    · refine ⟨rest, ?_, ?_, ?_⟩
      · rw [computeAll, if_neg hop, hrest]
      · intro p hp
        by_cases hprs : p ∈ rs
        · exact hin p hprs
        · rcases List.mem_cons.mp hp with e | e
          · rw [hout p hprs, e, rewrittenValue_not_load d fuel h r hop]
          · exact absurd e hprs
      · intro p hp
        exact hout p (fun e => hp (List.mem_cons_of_mem _ e))

/-- C3 (pre-rewrite observation).  On a well-formed function the in-place reverse
sweep of `optimizeMemoryDependency` completes and gives the same result as computing
`findOptMem(r)` for every Load `r` on the unmodified input graph and then applying all
rewrites at once; in particular every Load of the output holds the rewrite that
`findOptMem` computes for it on the input graph, whatever was rewritten before. -/
theorem C3_pre_rewrite_observation (d : Disjoint) (fuel : Nat) (f : Func)
    (hwf : WellFormed f) (hfuel : EnoughFuel f fuel) :
    optimizeMemoryDependency d fuel f = rewriteAllAtOnce d fuel f ∧
      ∃ f', optimizeMemoryDependency d fuel f = Except.ok f' ∧
        ∀ r ∈ f.values, f'.heap r = rewrittenValue d fuel f.heap r := by
  obtain ⟨f', hrun, hblocks, hout, hin⟩ := pass_spec d fuel f hwf hfuel
  refine ⟨?_, f', hrun, hin⟩
  obtain ⟨hnd, hconv, hord⟩ := hwf
  have htot : ∀ r ∈ f.values, (f.heap r).Op = Op.OpLoad →
      ∃ res, findOptMem d fuel f.heap r = Except.ok res := by
    intro r hr hop
    obtain ⟨b, hb, hrb⟩ := mem_allValues.mp hr
    exact findOptMem_total d f.heap b.Values fuel (hord b hb)
      (fun p hp => hconv p (mem_allValues.mpr ⟨b, hb, hp⟩)) (hfuel b hb) hrb hop
  obtain ⟨plan, hplan, hpin, hpout⟩ := computeAll_spec d fuel f.heap f.values htot
  rw [hrun]
  unfold rewriteAllAtOnce
  rw [hplan, bind_ok_eq]
  simp only [pure_eq_ok, Except.ok.injEq]
  cases f' with
  | mk bs hp =>
    simp only at hblocks hout hin
    subst hblocks
    congr 1
    funext p
    by_cases hpv : p ∈ f.values
    · rw [hin p hpv, hpin p hpv]
    · rw [hout p hpv, hpout p hpv]

/-- An instance of C3: the test graph "late optimization check", where `load2` walks
through `load1` and `load1` is itself rewritten. -/
theorem C3_pre_rewrite_observation_witness :
    WellFormed lateFunc ∧ EnoughFuel lateFunc 8 ∧
    (optimizeMemoryDependency dAddr 8 lateFunc = rewriteAllAtOnce dAddr 8 lateFunc ∧
      ∃ f', optimizeMemoryDependency dAddr 8 lateFunc = Except.ok f' ∧
        ∀ r ∈ lateFunc.values, f'.heap r = rewrittenValue dAddr 8 lateFunc.heap r) :=
  ⟨by decide, by decide, C3_pre_rewrite_observation dAddr 8 lateFunc (by decide) (by decide)⟩

/-- C4, the claim as stated fails: in the two-block function `crossFunc` the Load 6 has
the Load 5 of its own block as memory operand, the nearest Store on the chain is 4,
owned by the other block, and the oracle does not prove it disjoint from 6; after the
pass the memory operand of 6 is still 5, not the Store 4. -/
theorem C4_counterexample :
    WellFormed crossFunc ∧ EnoughFuel crossFunc 5 ∧ 6 ∈ crossFunc.values ∧
    (crossFunc.heap 6).Op = Op.OpLoad ∧
    memoryArg (crossFunc.heap 6) = Except.ok (some 5) ∧
    NearestStore crossFunc.heap 5 1 4 ∧
    valueJoint dAddr (crossFunc.heap 6) (crossFunc.heap 4) = Except.ok true ∧
    (optimizeMemoryDependency dAddr 5 crossFunc).map (fun f' => memoryArg (f'.heap 6)) =
      Except.ok (Except.ok (some 5)) ∧
    (optimizeMemoryDependency dAddr 5 crossFunc).map (fun f' => memoryArg (f'.heap 6)) ≠
      Except.ok (Except.ok (some 4)) := by
  decide

/-- C4 (P3 conservative stop), amended.  On a well-formed function the pass completes,
and for every Load `r`: if `W` is the nearest Store reached by following the memory
chain from the memory operand of `r`, `W` is that memory operand itself or `W` and
every chain value before it are owned by the block of `r`, and the oracle does not
prove `W` disjoint from `r` (`valueJoint(r, W)` is true), then after the pass the
memory operand of `r` equals `W`. -/
theorem C4_conservative_stop (d : Disjoint) (fuel : Nat) (f : Func) (hwf : WellFormed f)
    (hfuel : EnoughFuel f fuel) :
    ∃ f', optimizeMemoryDependency d fuel f = Except.ok f' ∧
      ∀ r ∈ f.values, (f.heap r).Op = Op.OpLoad →
        ∀ orig k W, memoryArg (f.heap r) = Except.ok (some orig) →
          NearestStore f.heap orig k W →
          (k = 0 ∨ ∀ i, i ≤ k → ∀ c ∈ memChain f.heap orig i,
            (f.heap c).Block = (f.heap r).Block) →
          valueJoint d (f.heap r) (f.heap W) = Except.ok true →
          memoryArg (f'.heap r) = Except.ok (some W) := by
  obtain ⟨f', hrun, -, hfields, -, hloads⟩ := pass_walk d fuel f hwf hfuel
  refine ⟨f', hrun, ?_⟩
  intro r hr hop orig k W horig hnear hown hjoint
  obtain ⟨hreachW, hstW, hbefore⟩ := hnear
  obtain ⟨a, orig', new, hargs, hargs', hcases⟩ := hloads r hr hop
  have hop' : (f'.heap r).Op = Op.OpLoad := by rw [(hfields r).1, hop]
  have e1 := (memoryArg_load_two hop hargs).symm.trans horig
  simp only [Except.ok.injEq, Option.some.injEq] at e1
  subst e1
  rw [memoryArg_load_two hop' hargs']
  rcases hcases with ⟨hsame, hblk⟩ | ⟨n0, hn0, hw, hs⟩
  · subst hsame
    rcases hown with hk | hall
    · subst hk
      simp only [memChain, Option.some.injEq] at hreachW
      rw [hreachW]
    · exact absurd (hall 0 (by omega) new rfl) hblk
  · have hfirst : (f.heap orig').Block = (f.heap r).Block := by
      have h1 : memChain f.heap r 1 = some orig' := by
        rw [memChain_succ_left horig]
        rfl
      exact hw.block 1 orig' (le_refl 1) hn0 h1
    have hwW : Walked d f.heap r (k + 1) W := by
      refine ⟨?_, ?_, ?_⟩
      · rw [memChain_succ_left horig]
        exact hreachW
      · intro i c h1 h2 hc
        obtain ⟨i', rfl⟩ : ∃ i', i = i' + 1 := ⟨i - 1, by omega⟩
        rw [memChain_succ_left horig] at hc
        rcases hown with hk | hall
        · subst hk
          have hi' : i' = 0 := by omega
          subst hi'
          simp only [memChain, Option.some.injEq] at hc
          rw [← hc]
          exact hfirst
        · exact hall i' (by omega) c hc
      · intro i c h1 h2 hc hst
        obtain ⟨i', rfl⟩ : ∃ i', i = i' + 1 := ⟨i - 1, by omega⟩
        rw [memChain_succ_left horig] at hc
        exact absurd hst (hbefore i' (by omega) c hc)
    have hsW : StopAt d f.heap r W := Or.inr (Or.inl ⟨hstW, hjoint⟩)
    obtain ⟨-, e⟩ := walk_unique hn0 (by omega) hw hs hwW hsW
    rw [e]

/-- An instance of amended C4: in the test graph "late optimization check" the Load 7
walks through the Load 6 to the Store 5 at its own address, and ends with the Store 5
as memory operand. -/
theorem C4_conservative_stop_witness :
    WellFormed lateFunc ∧ EnoughFuel lateFunc 8 ∧
    ∃ f', optimizeMemoryDependency dAddr 8 lateFunc = Except.ok f' ∧
      memoryArg (f'.heap 7) = Except.ok (some 5) :=
  ⟨by decide, by decide,
    (C4_conservative_stop dAddr 8 lateFunc (by decide) (by decide)).elim
      (fun f' hf' => ⟨f', hf'.1, hf'.2 7 (by decide) (by decide) 6 1 5 (by decide) (by decide)
        (Or.inr (by decide)) (by decide)⟩)⟩

/-- What one visit can do, on any graph: nothing, or replace operand 1 of the visited
Load by the result of its walk. -/
theorem visitValue_cases {d : Disjoint} {fuel : Nat} {h h' : Heap} {v : Ptr}
    (hrun : visitValue d fuel h v = Except.ok h') :
    h' = h ∨ ((h v).Op = Op.OpLoad ∧ ∃ m, findOptMem d fuel h v = Except.ok (some m) ∧
      1 < (h v).Args.length ∧ memoryArg (h v) ≠ Except.ok (some m) ∧
      h' = fun p => if p = v then { h v with Args := (h v).Args.set 1 m } else h p) := by
  unfold visitValue at hrun
  by_cases hop : (h v).Op = Op.OpLoad
  · rw [if_neg (by simpa using hop)] at hrun
    cases hres : findOptMem d fuel h v with
    | error e => rw [hres] at hrun; cases hrun
    | ok res =>
      rw [hres, bind_ok_eq] at hrun
      cases res with
      | none =>
        simp only [pure_eq_ok, Except.ok.injEq] at hrun
        exact Or.inl hrun.symm
      | some m =>
        simp only at hrun
        cases hcur : memoryArg (h v) with
        | error e => rw [hcur] at hrun; cases hrun
        | ok cur =>
          rw [hcur, bind_ok_eq] at hrun
          by_cases hne : some m ≠ cur
          · rw [if_pos hne] at hrun
            unfold SetArg at hrun
            by_cases hlen : 1 < (h v).Args.length
            · rw [if_pos hlen] at hrun
              simp only [Except.ok.injEq] at hrun
              refine Or.inr ⟨hop, m, rfl, hlen, ?_, hrun.symm⟩
              intro e
              simp only [Except.ok.injEq] at e
              exact hne e.symm
            · rw [if_neg hlen] at hrun
              cases hrun
          · rw [if_neg hne] at hrun
            simp only [pure_eq_ok, Except.ok.injEq] at hrun
            exact Or.inl hrun.symm
  · rw [if_pos hop] at hrun
    simp only [pure_eq_ok, Except.ok.injEq] at hrun
    exact Or.inl hrun.symm

/-- A property of graphs kept by every visit of a listed value is kept by the sweep of
the inner loop. -/
theorem visitValues_induct (d : Disjoint) (fuel : Nat) (I : Heap → Prop) (S : Ptr → Prop)
    (hstep : ∀ h v h', S v → I h → visitValue d fuel h v = Except.ok h' → I h') :
    ∀ (vs : List Ptr) (h h' : Heap), (∀ v ∈ vs, S v) → I h →
      visitValues d fuel vs h = Except.ok h' → I h' := by
  intro vs
  induction vs with
  | nil =>
    intro h h' _ hI hrun
    simp only [visitValues, pure_eq_ok, Except.ok.injEq] at hrun
    rw [← hrun]
    exact hI
  | cons v vs ih =>
    intro h h' hS hI hrun
    rw [visitValues_cons] at hrun
    cases h1 : visitValues d fuel vs h with
    | error e => rw [h1] at hrun; cases hrun
    | ok h1v =>
      rw [h1, bind_ok_eq] at hrun
      exact hstep h1v v h' (hS v (List.mem_cons_self _ _))
        (ih h h1v (fun q hq => hS q (List.mem_cons_of_mem _ hq)) hI h1) hrun

/-- A property of graphs kept by every visit of a listed value is kept by the whole
sweep. -/
theorem visitBlocks_induct (d : Disjoint) (fuel : Nat) (I : Heap → Prop) (S : Ptr → Prop)
    (hstep : ∀ h v h', S v → I h → visitValue d fuel h v = Except.ok h' → I h') :
    ∀ (bs : List Block) (h h' : Heap), (∀ v ∈ allValues bs, S v) → I h →
      visitBlocks d fuel bs h = Except.ok h' → I h' := by
  intro bs
  induction bs with
  | nil =>
    intro h h' _ hI hrun
    simp only [visitBlocks, pure_eq_ok, Except.ok.injEq] at hrun
    rw [← hrun]
    exact hI
  | cons b bs ih =>
    intro h h' hS hI hrun
    rw [visitBlocks_cons] at hrun
    cases h1 : visitBlocks d fuel bs h with
    | error e => rw [h1] at hrun; cases hrun
    | ok h1v =>
      rw [h1, bind_ok_eq] at hrun
      have hSb : ∀ v ∈ b.Values, S v := fun v hv => hS v (List.mem_append_left _ hv)
      have hSbs : ∀ v ∈ allValues bs, S v := fun v hv => hS v (List.mem_append_right _ hv)
      exact visitValues_induct d fuel I S hstep b.Values h1v h' hSb
        (ih h h1v hSbs hI h1) hrun

/-- A property of graphs that holds of the input and is kept by every visit of an
owned value holds of the output of the pass. -/
theorem pass_induct (d : Disjoint) (fuel : Nat) (f f' : Func) (I : Heap → Prop)
    (hstep : ∀ h v h', v ∈ f.values → I h → visitValue d fuel h v = Except.ok h' → I h')
    (h0 : I f.heap) (hrun : optimizeMemoryDependency d fuel f = Except.ok f') :
    f'.Blocks = f.Blocks ∧ I f'.heap := by
  unfold optimizeMemoryDependency at hrun
  cases h1 : visitBlocks d fuel f.Blocks f.heap with
  | error e => rw [h1] at hrun; cases hrun
  | ok hv =>
    rw [h1, bind_ok_eq] at hrun
    simp only [pure_eq_ok, Except.ok.injEq] at hrun
    subst hrun
    exact ⟨rfl, visitBlocks_induct d fuel I (fun v => v ∈ f.values) hstep f.Blocks f.heap hv
      (fun v hv => hv) h0 h1⟩

/-- The result of a returning walk is owned by the block of the walking value. -/
theorem loop_block (d : Disjoint) (h : Heap) (load : Ptr) :
    ∀ (fuel : Nat) (v : Ptr) (m opt : Option Ptr) (M : Ptr),
      (∀ o, opt = some o → (h o).Block = (h load).Block) →
      findOptMemLoop d h load fuel v m opt = Except.ok (some M) →
      (h M).Block = (h load).Block := by
  intro fuel
  induction fuel with
  | zero =>
    intro v m opt M hopt hres
    cases m with
    | none =>
      rw [loop_none] at hres
      exact hopt M (Except.ok.inj hres)
    | some m0 => cases hres
  | succ fuel ih =>
    intro v m opt M hopt hres
    cases m with
    | none =>
      rw [loop_none] at hres
      exact hopt M (Except.ok.inj hres)
    | some m0 =>
      rw [loop_step] at hres
      cases hs : stopCheck d h load v with
      | error e => rw [hs] at hres; cases hres
      | ok stop =>
        rw [hs, bind_ok_eq] at hres
        by_cases hst : stop = true
        · rw [if_pos hst] at hres
          exact hopt M (Except.ok.inj hres)
        · rw [if_neg hst] at hres
          by_cases hb : (h load).Block ≠ (h m0).Block
          · rw [if_pos hb] at hres
            exact hopt M (Except.ok.inj hres)
          · rw [if_neg hb] at hres
            have hb' : (h m0).Block = (h load).Block := by
              by_contra hne
              exact hb (fun e => hne e.symm)
            cases hm' : memoryArg (h m0) with
            | error e => rw [hm'] at hres; cases hres
            | ok m' =>
              rw [hm', bind_ok_eq] at hres
              exact ih m0 m' (some m0) M
                (fun o ho => by rw [← Option.some.inj ho]; exact hb') hres

theorem findOptMem_block {d : Disjoint} {fuel : Nat} {h : Heap} {load M : Ptr}
    (hres : findOptMem d fuel h load = Except.ok (some M)) :
    (h M).Block = (h load).Block := by
  unfold findOptMem at hres
  cases hm : memoryArg (h load) with
  | error e => rw [hm] at hres; cases hres
  | ok m =>
    rw [hm, bind_ok_eq] at hres
    exact loop_block d h load fuel load m none M (fun o ho => by cases ho) hres

theorem getLast?_set_one (m : Ptr) : ∀ L : List Ptr, 1 < L.length →
    (L.set 1 m).getLast? = if L.length = 2 then some m else L.getLast?
  | [], h => by simp at h
  | [_], h => by simp at h
  | [_, _], _ => by simp
  | _ :: _ :: _ :: _, _ => by simp [List.getLast?_cons_cons]

theorem memoryArg_congr {v v' : Value} (hop : v'.Op = v.Op)
    (hl : v'.Args.getLast? = v.Args.getLast?) : memoryArg v' = memoryArg v := by
  unfold memoryArg
  rw [hop, hl]

theorem memoryArg_set_one {v : Value} {m : Ptr} (hop : v.Op = Op.OpLoad)
    (hlen : 1 < v.Args.length) :
    memoryArg { v with Args := v.Args.set 1 m } = Except.ok (some m) ∨
      memoryArg { v with Args := v.Args.set 1 m } = memoryArg v := by
  by_cases h2 : v.Args.length = 2
  · left
    unfold memoryArg
    simp only [hop, getLast?_set_one m v.Args hlen, if_pos h2]
  · right
    refine memoryArg_congr (v := v) rfl ?_
    simp only [getLast?_set_one m v.Args hlen, if_neg h2]

/-- C5 (P4 block locality).  For every function, every oracle and every value `r`:
whenever `findOptMem(r)` returns a value `M`, `M` is owned by the same block as `r`;
and whenever a completed run of `optimizeMemoryDependency` has changed the memory
operand of `r` to `M`, `M` is owned by the same block as `r`. -/
theorem C5_block_locality (d : Disjoint) (fuel : Nat) (f : Func) :
    (∀ r M, findOptMem d fuel f.heap r = Except.ok (some M) →
      (f.heap M).Block = (f.heap r).Block) ∧
    (∀ f', optimizeMemoryDependency d fuel f = Except.ok f' →
      ∀ r M, memoryArg (f'.heap r) = Except.ok (some M) →
        memoryArg (f.heap r) ≠ Except.ok (some M) →
        (f.heap M).Block = (f.heap r).Block) := by
  refine ⟨fun r M hres => findOptMem_block hres, ?_⟩
  intro f' hrun
  have key := pass_induct d fuel f f'
    (fun h => (∀ p, (h p).Block = (f.heap p).Block) ∧
      ∀ p M, memoryArg (h p) = Except.ok (some M) →
        memoryArg (f.heap p) ≠ Except.ok (some M) → (f.heap M).Block = (f.heap p).Block)
    ?_ ⟨fun _ => rfl, fun p M h1 h2 => absurd h1 h2⟩ hrun
  · exact key.2.2
  · intro h v h' _ hI hstep
    obtain ⟨hB, hM⟩ := hI
    rcases visitValue_cases hstep with e | ⟨hop, m, hres, hlen, -, e⟩
    · rw [e]
      exact ⟨hB, hM⟩
    · subst e
      refine ⟨?_, ?_⟩
      · intro p
        by_cases hp : p = v
        · simp only [if_pos hp]
          rw [hp]
          exact hB v
        · simp only [if_neg hp]
          exact hB p
      · intro p M h1 h2
        by_cases hp : p = v
        · subst hp
          simp only [if_true] at h1
          rcases memoryArg_set_one (m := m) hop hlen with e1 | e1
          · rw [e1] at h1
            simp only [Except.ok.injEq, Option.some.injEq] at h1
            subst h1
            have := findOptMem_block hres
            rw [hB, hB] at this
            exact this
          · rw [e1] at h1
            exact hM p M h1 h2
        · simp only [if_neg hp] at h1
          exact hM p M h1 h2

/-- An instance of C5: in the test graph "late optimization check" the walk of the
Load 7 returns the Store 5, owned by the block of 7. -/
theorem C5_block_locality_witness : (lateFunc.heap 5).Block = (lateFunc.heap 7).Block :=
  (C5_block_locality dAddr 8 lateFunc).1 7 5 (by decide)

/-- C6 (block boundary stop).  For every Load `r` whose memory operand `m` is owned by
a different block than `r`, under every oracle: `findOptMem(r)` returns nil, every
completed run of `optimizeMemoryDependency` leaves the memory operand of `r`
unchanged, and on a well-formed function the run does complete. -/
theorem C6_block_boundary_stop (d : Disjoint) (fuel : Nat) (f : Func) (r m : Ptr)
    (hop : (f.heap r).Op = Op.OpLoad) (hm : memoryArg (f.heap r) = Except.ok (some m))
    (hb : (f.heap m).Block ≠ (f.heap r).Block) :
    findOptMem d (fuel + 1) f.heap r = Except.ok none ∧
    (∀ f', optimizeMemoryDependency d fuel f = Except.ok f' →
      memoryArg (f'.heap r) = Except.ok (some m)) ∧
    (WellFormed f → EnoughFuel f fuel →
      ∃ f', optimizeMemoryDependency d fuel f = Except.ok f' ∧
        memoryArg (f'.heap r) = Except.ok (some m)) := by
  have hpart : ∀ f', optimizeMemoryDependency d fuel f = Except.ok f' →
      memoryArg (f'.heap r) = Except.ok (some m) := by
    intro f' hrun
    have key := pass_induct d fuel f f'
      (fun h => (∀ p, (h p).Block = (f.heap p).Block) ∧ h r = f.heap r)
      ?_ ⟨fun _ => rfl, rfl⟩ hrun
    · rw [key.2.2, hm]
    · intro h v h' _ hI hstep
      obtain ⟨hB, hr⟩ := hI
      rcases visitValue_cases hstep with e | ⟨hopv, m', hres, -, -, e⟩
      · rw [e]
        exact ⟨hB, hr⟩
      · subst e
        have hvr : r ≠ v := by
          intro e
          subst e
          have hop' : (h r).Op = Op.OpLoad := by rw [hr, hop]
          obtain ⟨m0, hm0, hc⟩ := findOptMem_sound hop' hres
          rw [hr, hm] at hm0
          simp only [Except.ok.injEq, Option.some.injEq] at hm0
          subst hm0
          rcases hc with ⟨hnone, -⟩ | ⟨hblk, -⟩
          · cases hnone
          · rw [hB, hB] at hblk
            exact hb hblk
        refine ⟨?_, ?_⟩
        · intro p
          by_cases hp : p = v
          · simp only [if_pos hp]
            rw [hp]
            exact hB v
          · simp only [if_neg hp]
            exact hB p
        · simp only [if_neg hvr]
          exact hr
  refine ⟨?_, hpart, ?_⟩
  · unfold findOptMem
    rw [hm, bind_ok_eq, loop_step, stopCheck_not_store (by rw [hop]; decide), bind_ok_eq]
    simp only [Bool.false_eq_true, if_false]
    rw [if_pos (fun e => hb e.symm)]
    rfl
  · intro hwf hfuel
    obtain ⟨f', hrun, -⟩ := pass_spec d fuel f hwf hfuel
    exact ⟨f', hrun, hpart f' hrun⟩

/-- An instance of C6: the Load 5 of block 2 of `crossFunc` has the Store 4 of block 1
as memory operand; its walk returns nil and the pass leaves the operand in place. -/
theorem C6_block_boundary_stop_witness :
    findOptMem dNever (5 + 1) crossFunc.heap 5 = Except.ok none ∧
    ∃ f', optimizeMemoryDependency dNever 5 crossFunc = Except.ok f' ∧
      memoryArg (f'.heap 5) = Except.ok (some 4) :=
  ⟨(C6_block_boundary_stop dNever 5 crossFunc 5 4 (by decide) (by decide) (by decide)).1,
    (C6_block_boundary_stop dNever 5 crossFunc 5 4 (by decide) (by decide) (by decide)).2.2
      (by decide) (by decide)⟩

theorem head?_set_one (m : Ptr) : ∀ L : List Ptr, (L.set 1 m).head? = L.head?
  | [] => rfl
  | [_] => rfl
  | _ :: _ :: _ => rfl

/-- C7 (P5 frame).  For every function whose Loads have exactly the operands
`[address, memory]`, a completed run of `optimizeMemoryDependency` changes nothing
except the memory operand (operand index 1) of Load values: the block list with every
block's values and their order is the same, every value keeps its operation kind,
type, aux payload and owning block, every Store and every other value that is not an
owned Load keeps all its operands, and every owned Load keeps its address operand.  On
a well-formed function the run does complete. -/
theorem C7_frame (d : Disjoint) (fuel : Nat) (f : Func)
    (hloads : ∀ p ∈ f.values, (f.heap p).Op = Op.OpLoad → (f.heap p).Args.length = 2) :
    (∀ f', optimizeMemoryDependency d fuel f = Except.ok f' →
      f'.Blocks = f.Blocks ∧
      ∀ p, (f'.heap p).Op = (f.heap p).Op ∧ (f'.heap p).Typ = (f.heap p).Typ ∧
        (f'.heap p).Aux = (f.heap p).Aux ∧ (f'.heap p).Block = (f.heap p).Block ∧
        ((f.heap p).Op ≠ Op.OpLoad ∨ p ∉ f.values → (f'.heap p).Args = (f.heap p).Args) ∧
        ((f.heap p).Op = Op.OpLoad → p ∈ f.values →
          ∃ a m m', (f.heap p).Args = [a, m] ∧ (f'.heap p).Args = [a, m'])) ∧
    (WellFormed f → EnoughFuel f fuel →
      ∃ f', optimizeMemoryDependency d fuel f = Except.ok f') := by
  refine ⟨?_, fun hwf hfuel => ?_⟩
  · intro f' hrun
    have key := pass_induct d fuel f f'
      (fun h => ∀ p, (h p).Op = (f.heap p).Op ∧ (h p).Typ = (f.heap p).Typ ∧
        (h p).Aux = (f.heap p).Aux ∧ (h p).Block = (f.heap p).Block ∧
        ((f.heap p).Op ≠ Op.OpLoad ∨ p ∉ f.values → (h p).Args = (f.heap p).Args) ∧
        (h p).Args.length = (f.heap p).Args.length ∧
        (h p).Args.head? = (f.heap p).Args.head?)
      ?_ (fun _ => ⟨rfl, rfl, rfl, rfl, fun _ => rfl, rfl, rfl⟩) hrun
    · refine ⟨key.1, fun p => ?_⟩
      obtain ⟨h1, h2, h3, h4, h5, h6, h7⟩ := key.2 p
      refine ⟨h1, h2, h3, h4, h5, ?_⟩
      intro hop hp
      have hlen := hloads p hp hop
      match hA : (f.heap p).Args, hlen with
      | [a, m], _ =>
        rw [hA] at h6 h7
        match hA' : (f'.heap p).Args, h6, h7 with
        | [a', m'], _, h7 =>
          simp only [List.head?_cons, Option.some.injEq] at h7
          exact ⟨a, m, m', rfl, by rw [h7]⟩
    · intro h v h' hv hI hstep
      rcases visitValue_cases hstep with e | ⟨hop, m, -, hlen, -, e⟩
      · rw [e]
        exact hI
      · subst e
        intro p
        obtain ⟨h1, h2, h3, h4, h5, h6, h7⟩ := hI p
        by_cases hp : p = v
        · subst hp
          simp only [if_true]
          refine ⟨h1, h2, h3, h4, ?_, ?_, ?_⟩
          · intro hne
            rcases hne with hne | hne
            · exact absurd (h1 ▸ hop) hne
            · exact absurd hv hne
          · rw [List.length_set]
            exact h6
          · rw [head?_set_one]
            exact h7
        · simp only [if_neg hp]
          exact ⟨h1, h2, h3, h4, h5, h6, h7⟩
  · obtain ⟨f', hrun, -⟩ := pass_spec d fuel f hwf hfuel
    exact ⟨f', hrun⟩

/-- An instance of C7: the test graph "mix change", on which the run completes. -/
theorem C7_frame_witness :
    (∀ p ∈ mixFunc.values, (mixFunc.heap p).Op = Op.OpLoad → (mixFunc.heap p).Args.length = 2) ∧
    ∃ f', optimizeMemoryDependency dAddr 11 mixFunc = Except.ok f' ∧ f'.Blocks = mixFunc.Blocks ∧
      (f'.heap 8).Args = (mixFunc.heap 8).Args :=
  ⟨by decide,
    ((C7_frame dAddr 11 mixFunc (by decide)).2 (by decide) (by decide)).elim
      (fun f' hf' => ⟨f', hf', ((C7_frame dAddr 11 mixFunc (by decide)).1 f' hf').1,
        (((C7_frame dAddr 11 mixFunc (by decide)).1 f' hf').2 8).2.2.2.2.1
          (Or.inl (by decide))⟩)⟩

theorem memoryArg_origin {v : Value} (h1 : v.Op ≠ Op.OpLoad) (h2 : v.Op ≠ Op.OpStore) :
    memoryArg v = Except.ok none := by
  unfold memoryArg
  cases hop : v.Op <;> simp_all

/-- Positions along a walked chain: if the chain value at step `a` sits at position
`k0` of a value list in definition-before-use order, the value reached at step `n`
sits at least `n - a` positions before it. -/
theorem walked_position_from {d : Disjoint} {h : Heap} {vals : List Ptr} {load c : Ptr}
    {a k0 : Nat} (hord : chainOrdered h vals) (hc : memChain h load a = some c)
    (hk0 : vals[k0]? = some c) :
    ∀ (n : Nat) (M : Ptr), a ≤ n → Walked d h load n M →
      ∃ k, k + (n - a) ≤ k0 ∧ vals[k]? = some M := by
  intro n
  induction n with
  | zero =>
    intro M ha hw
    have ha0 : a = 0 := by omega
    subst ha0
    have e := hc.symm.trans hw.reach
    simp only [Option.some.injEq] at e
    subst e
    exact ⟨k0, by omega, hk0⟩
  | succ n ih =>
    intro M ha hw
    by_cases hlast : a = n + 1
    · subst hlast
      have e := hc.symm.trans hw.reach
      simp only [Option.some.injEq] at e
      subst e
      exact ⟨k0, by omega, hk0⟩
    · obtain ⟨b, hb, hbM⟩ := memChain_pred hw.reach
      have hwb : Walked d h load n b :=
        ⟨hb, fun i c h1 h2 hc => hw.block i c h1 (by omega) hc,
          fun i c h1 h2 hc => hw.clear i c h1 (by omega) hc⟩
      obtain ⟨k, hk, hkb⟩ := ih b (by omega) hwb
      have hMb : (h M).Block = (h load).Block :=
        hw.block (n + 1) M (by omega) (le_refl _) hw.reach
      have hbb : (h b).Block = (h load).Block := by
        by_cases hn : n = 0
        · subst hn
          simp only [memChain, Option.some.injEq] at hb
          rw [hb]
        · exact hw.block n b (by omega) (by omega) hb
      obtain ⟨k', hk', hkM⟩ := chainOrdered_step hord hkb hbM (hMb.trans hbb.symm)
      exact ⟨k', by omega, hkM⟩

/-- Full shortening on a well-formed function: a Load whose chain reaches a chain
origin inside its own block, past Stores that are all judged disjoint from it, ends
with that origin as memory operand. -/
theorem pass_full_shortening (d : Disjoint) (fuel : Nat) (f : Func) (hwf : WellFormed f)
    (hfuel : EnoughFuel f fuel) :
    ∃ f', optimizeMemoryDependency d fuel f = Except.ok f' ∧
      ∀ r ∈ f.values, (f.heap r).Op = Op.OpLoad →
        ∀ orig n O, memoryArg (f.heap r) = Except.ok (some orig) →
          memChain f.heap orig n = some O →
          (f.heap O).Op ≠ Op.OpLoad → (f.heap O).Op ≠ Op.OpStore →
          (∀ i, i ≤ n → ∀ c ∈ memChain f.heap orig i,
            (f.heap c).Block = (f.heap r).Block) →
          (∀ i, i < n → ∀ c ∈ memChain f.heap orig i, (f.heap c).Op = Op.OpStore →
            valueJoint d (f.heap r) (f.heap c) = Except.ok false) →
          memoryArg (f'.heap r) = Except.ok (some O) := by
  obtain ⟨f', hrun, -, hfields, -, hloads⟩ := pass_walk d fuel f hwf hfuel
  refine ⟨f', hrun, ?_⟩
  intro r hr hop orig n O horig hreach hO1 hO2 hown hdis
  obtain ⟨a, orig', new, hargs, hargs', hcases⟩ := hloads r hr hop
  have hop' : (f'.heap r).Op = Op.OpLoad := by rw [(hfields r).1, hop]
  have e1 := (memoryArg_load_two hop hargs).symm.trans horig
  simp only [Except.ok.injEq, Option.some.injEq] at e1
  subst e1
  rw [memoryArg_load_two hop' hargs']
  rcases hcases with ⟨hsame, hblk⟩ | ⟨n0, hn0, hw, hs⟩
  · exact absurd (hown 0 (by omega) orig' rfl) hblk
  · have hwO : Walked d f.heap r (n + 1) O := by
      refine ⟨?_, ?_, ?_⟩
      · rw [memChain_succ_left horig]
        exact hreach
      · intro i c h1 h2 hc
        obtain ⟨i', rfl⟩ : ∃ i', i = i' + 1 := ⟨i - 1, by omega⟩
        rw [memChain_succ_left horig] at hc
        exact hown i' (by omega) c hc
      · intro i c h1 h2 hc hst
        obtain ⟨i', rfl⟩ : ∃ i', i = i' + 1 := ⟨i - 1, by omega⟩
        rw [memChain_succ_left horig] at hc
        exact hdis i' (by omega) c hc hst
    have hsO : StopAt d f.heap r O := Or.inl (memoryArg_origin hO1 hO2)
    obtain ⟨-, e⟩ := walk_unique hn0 (by omega) hw hs hwO hsO
    rw [e]

/-- C8 (full shortening).  On a well-formed function the pass completes, and for every
Load `r`: if the memory chain of `r` reaches a chain origin `O` (a value that is
neither Load nor Store) through values that are all owned by the block of `r`, `O`
itself is owned by the block of `r`, and every Store on that chain is judged disjoint
from `r` by the oracle, then after the pass the memory operand of `r` is `O`. -/
theorem C8_full_shortening (d : Disjoint) (fuel : Nat) (f : Func) (hwf : WellFormed f)
    (hfuel : EnoughFuel f fuel) :
    ∃ f', optimizeMemoryDependency d fuel f = Except.ok f' ∧
      ∀ r ∈ f.values, (f.heap r).Op = Op.OpLoad →
        ∀ orig n O, memoryArg (f.heap r) = Except.ok (some orig) →
          memChain f.heap orig n = some O →
          (f.heap O).Op ≠ Op.OpLoad → (f.heap O).Op ≠ Op.OpStore →
          (∀ i, i ≤ n → ∀ c ∈ memChain f.heap orig i,
            (f.heap c).Block = (f.heap r).Block) →
          (∀ i, i < n → ∀ c ∈ memChain f.heap orig i, (f.heap c).Op = Op.OpStore →
            valueJoint d (f.heap r) (f.heap c) = Except.ok false) →
          memoryArg (f'.heap r) = Except.ok (some O) :=
  pass_full_shortening d fuel f hwf hfuel

/-- An instance of C8: in the test graph "mix change" the Load 9 sits after the Stores
8 and 7, both at other addresses, and ends with the initial memory 0 as memory
operand. -/
theorem C8_full_shortening_witness :
    WellFormed mixFunc ∧ EnoughFuel mixFunc 11 ∧
    ∃ f', optimizeMemoryDependency dAddr 11 mixFunc = Except.ok f' ∧
      memoryArg (f'.heap 9) = Except.ok (some 0) :=
  ⟨by decide, by decide,
    (C8_full_shortening dAddr 11 mixFunc (by decide) (by decide)).elim
      (fun f' hf' => ⟨f', hf'.1, hf'.2 9 (by decide) (by decide) 8 2 0 (by decide) (by decide)
        (by decide) (by decide) (by decide) (by decide)⟩)⟩

theorem memChain_add {h : Heap} (a : Nat) : ∀ (v c : Ptr) (b : Nat),
    memChain h v a = some c → memChain h v (a + b) = memChain h c b := by
  induction a with
  | zero =>
    intro v c b hc
    simp only [memChain, Option.some.injEq] at hc
    subst hc
    simp
  | succ a ih =>
    intro v c b hc
    rw [memChain] at hc
    cases hm : memoryOperand (h v) with
    | none => rw [hm] at hc; cases hc
    | some m =>
      rw [hm] at hc
      simp only [Option.some_bind] at hc
      have e : a + 1 + b = (a + b) + 1 := by omega
      rw [e, memChain, hm]
      simp only [Option.some_bind]
      exact ih m c b hc

/-- C9 (Loads are transparent).  On a well-formed function and for every oracle the
pass completes, and for every Load `r` whose memory chain runs through Loads only, all
owned by the block of `r`, and ends at a chain origin `O` owned by that block: after
the pass `O` is the memory operand of `r` and of every Load on that chain.  No Load on
the chain stops the walk, whatever the oracle says about it. -/
theorem C9_loads_transparent (d : Disjoint) (fuel : Nat) (f : Func) (hwf : WellFormed f)
    (hfuel : EnoughFuel f fuel) :
    ∃ f', optimizeMemoryDependency d fuel f = Except.ok f' ∧
      ∀ r ∈ f.values, (f.heap r).Op = Op.OpLoad →
        ∀ orig n O, memoryArg (f.heap r) = Except.ok (some orig) →
          memChain f.heap orig n = some O →
          (f.heap O).Op ≠ Op.OpLoad → (f.heap O).Op ≠ Op.OpStore →
          (∀ i, i ≤ n → ∀ c ∈ memChain f.heap orig i,
            (f.heap c).Block = (f.heap r).Block) →
          (∀ i, i < n → ∀ c ∈ memChain f.heap orig i, (f.heap c).Op = Op.OpLoad) →
          memoryArg (f'.heap r) = Except.ok (some O) ∧
          ∀ i, i < n → ∀ c ∈ memChain f.heap orig i,
            memoryArg (f'.heap c) = Except.ok (some O) := by
  obtain ⟨f', hrun, hfull⟩ := pass_full_shortening d fuel f hwf hfuel
  refine ⟨f', hrun, ?_⟩
  intro r hr hop orig n O horig hreach hO1 hO2 hown hld
  have hnostore : ∀ i, i < n → ∀ c ∈ memChain f.heap orig i, (f.heap c).Op = Op.OpStore →
      valueJoint d (f.heap r) (f.heap c) = Except.ok false := by
    intro i hi c hc hst
    have := hld i hi c hc
    rw [this] at hst
    cases hst
  refine ⟨hfull r hr hop orig n O horig hreach hO1 hO2 hown hnostore, ?_⟩
  intro i hi c hc
  have hc' : memChain f.heap orig i = some c := hc
  have hcop : (f.heap c).Op = Op.OpLoad := hld i hi c hc
  have hcb : (f.heap c).Block = (f.heap r).Block := hown i (by omega) c hc
  -- `c` is owned by the function: it lies before `r` in the value list of its block
  obtain ⟨b, hb, hrb⟩ := mem_allValues.mp hr
  obtain ⟨j, hj, hjr⟩ := List.getElem_of_mem hrb
  have hjr' : b.Values[j]? = some r := by rw [List.getElem?_eq_getElem hj, hjr]
  have hwc : Walked d f.heap r (i + 1) c := by
    refine ⟨?_, ?_, ?_⟩
    · rw [memChain_succ_left horig]
      exact hc'
    · intro i1 c1 h1 h2 hc1
      obtain ⟨i', rfl⟩ : ∃ i', i1 = i' + 1 := ⟨i1 - 1, by omega⟩
      rw [memChain_succ_left horig] at hc1
      exact hown i' (by omega) c1 hc1
    · intro i1 c1 h1 h2 hc1 hst
      obtain ⟨i', rfl⟩ : ∃ i', i1 = i' + 1 := ⟨i1 - 1, by omega⟩
      rw [memChain_succ_left horig] at hc1
      have := hld i' (by omega) c1 hc1
      rw [this] at hst
      cases hst
  obtain ⟨k, -, hkc⟩ := walked_position_from (a := 0) (c := r) (hwf.2.2 b hb) rfl hjr'
    (i + 1) c (by omega) hwc
  have hcmem : c ∈ f.values := mem_allValues.mpr ⟨b, hb, mem_of_getElem_some hkc⟩
  -- the chain of `c` is the rest of the chain of `r`
  obtain ⟨c1, hc1⟩ := memChain_defined_le hreach (i + 1) (by omega)
  obtain ⟨c0, hc0, hcarg⟩ := memChain_pred hc1
  rw [hc'] at hc0
  cases hc0
  have hrest : ∀ t, memChain f.heap c1 t = memChain f.heap orig (i + 1 + t) := fun t =>
    (memChain_add (i + 1) orig c1 t hc1).symm
  have hreach' : memChain f.heap c1 (n - (i + 1)) = some O := by
    rw [hrest]
    have e : i + 1 + (n - (i + 1)) = n := by omega
    rw [e]
    exact hreach
  refine hfull c hcmem hcop c1 (n - (i + 1)) O hcarg hreach' hO1 hO2 ?_ ?_
  · intro t ht x hx
    have hx' : memChain f.heap c1 t = some x := hx
    rw [hrest] at hx'
    rw [hcb]
    exact hown (i + 1 + t) (by omega) x hx'
  · intro t ht x hx hst
    have hx' : memChain f.heap c1 t = some x := hx
    rw [hrest] at hx'
    have := hld (i + 1 + t) (by omega) x hx'
    rw [this] at hst
    cases hst

/-- An instance of C9: in the test graph "optimize a single load" the Load 5 sits after
the Load 4, which sits after the initial memory 0; under the oracle that proves nothing
disjoint both end with 0 as memory operand. -/
theorem C9_loads_transparent_witness :
    WellFormed loadsFunc ∧ EnoughFuel loadsFunc 6 ∧
    ∃ f', optimizeMemoryDependency dNever 6 loadsFunc = Except.ok f' ∧
      memoryArg (f'.heap 5) = Except.ok (some 0) ∧
      memoryArg (f'.heap 4) = Except.ok (some 0) :=
  ⟨by decide, by decide,
    (C9_loads_transparent dNever 6 loadsFunc (by decide) (by decide)).elim
      (fun f' hf' =>
        ⟨f', hf'.1,
          (hf'.2 5 (by decide) (by decide) 4 1 0 (by decide) (by decide) (by decide) (by decide)
            (by decide) (by decide)).1,
          (hf'.2 5 (by decide) (by decide) 4 1 0 (by decide) (by decide) (by decide) (by decide)
            (by decide) (by decide)).2 0 (by decide) 4 rfl⟩)⟩

/-- The pass keeps a well-formed function well-formed. -/
theorem pass_wellFormed (d : Disjoint) (fuel : Nat) (f : Func) (hwf : WellFormed f)
    (hfuel : EnoughFuel f fuel) :
    ∃ f', optimizeMemoryDependency d fuel f = Except.ok f' ∧ f'.Blocks = f.Blocks ∧
      WellFormed f' := by
  obtain ⟨f', hrun, hblocks, hfields, hsame, hloads⟩ := pass_walk d fuel f hwf hfuel
  refine ⟨f', hrun, hblocks, ?_⟩
  obtain ⟨hnd, hconv, hord⟩ := hwf
  have hvalues : f'.values = f.values := by
    unfold Func.values
    rw [hblocks]
  refine ⟨hvalues ▸ hnd, ?_, ?_⟩
  · intro p hp
    rw [hvalues] at hp
    by_cases hop : (f.heap p).Op = Op.OpLoad
    · obtain ⟨a, orig, new, -, hargs', -⟩ := hloads p hp hop
      unfold operandConvention
      rw [(hfields p).1, hop]
      simp [hargs']
    · rw [hsame p (Or.inr hop)]
      exact hconv p hp
  · intro b hb
    rw [hblocks] at hb
    intro j hj
    unfold operandEarlier
    cases hv : b.Values[j]? with
    | none => trivial
    | some v =>
      simp only
      have hvmem : v ∈ f.values := mem_allValues.mpr ⟨b, hb, mem_of_getElem_some hv⟩
      by_cases hop : (f.heap v).Op = Op.OpLoad
      · obtain ⟨a, orig, new, hargs, hargs', hcases⟩ := hloads v hvmem hop
        have hop' : (f'.heap v).Op = Op.OpLoad := by rw [(hfields v).1, hop]
        rw [memoryOperand_of_memoryArg (memoryArg_load_two hop' hargs')]
        simp only
        intro hblk
        rw [(hfields new).2.1, (hfields v).2.1] at hblk
        rcases hcases with ⟨hsame', hne⟩ | ⟨n0, hn0, hw, -⟩
        · rw [hsame'] at hblk
          exact absurd hblk hne
        · obtain ⟨k, hk, hkM⟩ := walked_position_from (a := 0) (c := v) (hord b hb) rfl hv
            n0 new (by omega) hw
          rw [List.mem_take_iff_getElem]
          obtain ⟨hkl, hke⟩ := List.getElem?_eq_some.mp hkM
          exact ⟨k, by omega, hke⟩
      · have := hord b hb j hj
        unfold operandEarlier at this
        rw [hv] at this
        simp only at this
        rw [hsame v (Or.inr hop)]
        cases hm : memoryOperand (f.heap v) with
        | none => trivial
        | some m =>
          rw [hm] at this
          simp only at this ⊢
          intro hblk
          rw [(hfields m).2.1] at hblk
          exact this hblk

/-- C10 (invariant preservation).  If before the pass every Load/Store's memory operand
that lies in the same block appears strictly earlier in that block's value list (on a
well-formed function), then the pass completes and the same holds after it; and the
new memory operand of a rewritten Load is owned by the Load's block and listed in that
block's value list at a position strictly before the Load and not after its original
operand. -/
theorem C10_invariant_preservation (d : Disjoint) (fuel : Nat) (f : Func)
    (hwf : WellFormed f) (hfuel : EnoughFuel f fuel) :
    ∃ f', optimizeMemoryDependency d fuel f = Except.ok f' ∧ memChainInvariant f' ∧
      ∀ b ∈ f.Blocks, ∀ (j : Nat) (r : Ptr), b.Values[j]? = some r → (f.heap r).Op = Op.OpLoad →
        ∀ orig new, memoryArg (f.heap r) = Except.ok (some orig) →
          memoryArg (f'.heap r) = Except.ok (some new) → new ≠ orig →
          (f'.heap new).Block = (f'.heap r).Block ∧
          ∃ k k0 : Nat, k < j ∧ k ≤ k0 ∧ b.Values[k]? = some new ∧ b.Values[k0]? = some orig := by
  obtain ⟨f', hrun, -, hwf'⟩ := pass_wellFormed d fuel f hwf hfuel
  obtain ⟨f'', hrun', -, hfields, -, hloads⟩ := pass_walk d fuel f hwf hfuel
  have e : f'' = f' := Except.ok.inj (hrun'.symm.trans hrun)
  subst e
  refine ⟨f'', hrun, hwf'.2.2, ?_⟩
  intro b hb j r hjr hop orig new horig hnew hne
  have hr : r ∈ f.values := mem_allValues.mpr ⟨b, hb, mem_of_getElem_some hjr⟩
  obtain ⟨a, orig', new', hargs, hargs', hcases⟩ := hloads r hr hop
  have hop' : (f''.heap r).Op = Op.OpLoad := by rw [(hfields r).1, hop]
  have e1 := (memoryArg_load_two hop hargs).symm.trans horig
  have e2 := (memoryArg_load_two hop' hargs').symm.trans hnew
  simp only [Except.ok.injEq, Option.some.injEq] at e1 e2
  subst e1
  subst e2
  rcases hcases with ⟨hsame, -⟩ | ⟨n0, hn0, hw, -⟩
  · exact absurd hsame hne
  · have h1 : memChain f.heap r 1 = some orig' := by
      rw [memChain_succ_left horig]
      rfl
    have hw1 : Walked d f.heap r 1 orig' :=
      Walked.first horig (hw.block 1 orig' (le_refl 1) hn0 h1)
    obtain ⟨k0, hk0, hk0o⟩ := walked_position_from (a := 0) (c := r) (hwf.2.2 b hb) rfl hjr
      1 orig' (by omega) hw1
    obtain ⟨k, hk, hkn⟩ := walked_position_from (a := 1) (c := orig') (hwf.2.2 b hb) h1 hk0o
      n0 new' hn0 hw
    refine ⟨?_, k, k0, by omega, by omega, hkn, hk0o⟩
    rw [(hfields new').2.1, (hfields r).2.1]
    exact hw.block n0 new' hn0 (le_refl _) hw.reach

/-- An instance of C10: in the test graph "mix change" the Load 9, listed at position 9,
is rewritten from the Store 8 to the initial memory 0. -/
theorem C10_invariant_preservation_witness :
    WellFormed mixFunc ∧ EnoughFuel mixFunc 11 ∧
    ∃ f', optimizeMemoryDependency dAddr 11 mixFunc = Except.ok f' ∧ memChainInvariant f' ∧
      (f'.heap 0).Block = (f'.heap 9).Block ∧
      ∃ k k0 : Nat, k < 9 ∧ k ≤ k0 ∧ [0, 1, 2, 3, 4, 5, 6, 7, 8, 9, 10][k]? = some 0 ∧
        [0, 1, 2, 3, 4, 5, 6, 7, 8, 9, 10][k0]? = some 8 := by
  refine ⟨by decide, by decide, ?_⟩
  obtain ⟨f', hrun, hinv, hall⟩ :=
    C10_invariant_preservation dAddr 11 mixFunc (by decide) (by decide)
  have hnew : memoryArg (f'.heap 9) = Except.ok (some 0) :=
    result_eval (fun g => memoryArg (g.heap 9)) hrun (by decide)
  obtain ⟨hb, hpos⟩ := hall ⟨1, [0, 1, 2, 3, 4, 5, 6, 7, 8, 9, 10]⟩ (by decide) 9 9 (by decide)
    (by decide) 8 0 (by decide) hnew (by decide)
  exact ⟨f', hrun, hinv, hb, hpos⟩

theorem Value.eq_of_fields {v w : Value} (h1 : v.Op = w.Op) (h2 : v.Typ = w.Typ)
    (h3 : v.Aux = w.Aux) (h4 : v.Args = w.Args) (h5 : v.Block = w.Block) : v = w := by
  cases v
  cases w
  simp only at h1 h2 h3 h4 h5
  subst h1 h2 h3 h4 h5
  rfl

theorem addrSize_congr {v w : Value} (h1 : v.Op = w.Op) (h2 : v.Typ = w.Typ)
    (h3 : v.Aux = w.Aux) (h4 : v.Args.head? = w.Args.head?) : addrSize v = addrSize w := by
  unfold addrSize
  rw [h1, h2, h3, h4]

theorem memoryArg_none_op {v : Value} (h : memoryArg v = Except.ok none) :
    v.Op ≠ Op.OpLoad ∧ v.Op ≠ Op.OpStore := by
  unfold memoryArg at h
  constructor
  · intro hop
    rw [hop] at h
    simp only at h
    cases hl : v.Args.getLast? with
    | none => rw [hl] at h; cases h
    | some a => rw [hl] at h; cases h
  · intro hop
    rw [hop] at h
    simp only at h
    cases hl : v.Args.getLast? with
    | none => rw [hl] at h; cases h
    | some a => rw [hl] at h; cases h

/-- A second run of the pass on the output of a first run changes nothing: the output
of the pass on a well-formed function is a fixed point of the pass. -/
theorem pass_idempotent (d : Disjoint) (fuel : Nat) (f : Func) (hwf : WellFormed f)
    (hfuel : EnoughFuel f fuel) :
    ∃ f', optimizeMemoryDependency d fuel f = Except.ok f' ∧
      optimizeMemoryDependency d fuel f' = Except.ok f' := by
  obtain ⟨f', hrun, hblocks, hfields, hsame, hloads⟩ := pass_walk d fuel f hwf hfuel
  obtain ⟨f1, hrun1, -, hwf'⟩ := pass_wellFormed d fuel f hwf hfuel
  have e : f1 = f' := Except.ok.inj (hrun1.symm.trans hrun)
  subst e
  have hfuel' : EnoughFuel f1 fuel := by
    unfold EnoughFuel
    rw [hblocks]
    exact hfuel
  have hvalues : f1.values = f.values := by
    unfold Func.values
    rw [hblocks]
  obtain ⟨f2, hrun2, hblocks2, hfields2, hsame2, hloads2⟩ := pass_walk d fuel f1 hwf' hfuel'
  refine ⟨f1, hrun, ?_⟩
  rw [hrun2]
  have hheap : f2.heap = f1.heap := by
    funext p
    by_cases hp : p ∉ f1.values ∨ (f1.heap p).Op ≠ Op.OpLoad
    · exact hsame2 p hp
    · have hpv : p ∈ f1.values := by
        by_contra hn
        exact hp (Or.inl hn)
      have hop1 : (f1.heap p).Op = Op.OpLoad := by
        by_contra hn
        exact hp (Or.inr hn)
      have hop : (f.heap p).Op = Op.OpLoad := by rw [← (hfields p).1, hop1]
      obtain ⟨a, orig, new, hargs, hargs1, hcases1⟩ := hloads p (hvalues ▸ hpv) hop
      obtain ⟨a2, orig2, new2, hargs1', hargs2, hcases2⟩ := hloads2 p hpv hop1
      rw [hargs1] at hargs1'
      simp only [List.cons.injEq, and_true] at hargs1'
      obtain ⟨ea, eo⟩ := hargs1'
      subst ea
      subst eo
      have hm1 : memoryArg (f1.heap p) = Except.ok (some new) := memoryArg_load_two hop1 hargs1
      have hnew : new2 = new := by
        rcases hcases2 with ⟨hsame', -⟩ | ⟨n2, hn2, hw2, hs2⟩
        · exact hsame'
        · have h1 : memChain f1.heap p 1 = some new := by
            rw [memChain_succ_left hm1]
            rfl
          have hb1 : (f1.heap new).Block = (f1.heap p).Block :=
            hw2.block 1 new (le_refl 1) hn2 h1
          have hbf : (f.heap new).Block = (f.heap p).Block := by
            rw [← (hfields new).2.1, ← (hfields p).2.1]
            exact hb1
          have hw1 : Walked d f1.heap p 1 new := Walked.first hm1 hb1
          have hs1 : StopAt d f1.heap p new := by
            rcases hcases1 with ⟨hsame', hne⟩ | ⟨n1, hn1, hw, hs⟩
            · rw [hsame'] at hbf
              exact absurd hbf hne
            · rcases hs with h0 | ⟨hst, hj⟩ | ⟨m, hm, hmb⟩
              · have hnl := (memoryArg_none_op h0).1
                rw [← hsame new (Or.inr hnl)] at h0
                exact Or.inl h0
              · have hnl : (f.heap new).Op ≠ Op.OpLoad := by rw [hst]; decide
                have hnew' := hsame new (Or.inr hnl)
                refine Or.inr (Or.inl ⟨by rw [hnew', hst], ?_⟩)
                rw [hnew']
                unfold valueJoint at hj ⊢
                rw [addrSize_congr (v := f1.heap p) (w := f.heap p) (hfields p).1
                  (hfields p).2.2.1 (hfields p).2.2.2 (by rw [hargs, hargs1]; rfl)]
                exact hj
              · refine Or.inr (Or.inr ⟨m, ?_, ?_⟩)
                · by_cases hq : new ∉ f.values ∨ (f.heap new).Op ≠ Op.OpLoad
                  · rw [hsame new hq]
                    exact hm
                  · have hqv : new ∈ f.values := by
                      by_contra hn
                      exact hq (Or.inl hn)
                    have hqop : (f.heap new).Op = Op.OpLoad := by
                      by_contra hn
                      exact hq (Or.inr hn)
                    obtain ⟨b, o, o', hb, hb', hc⟩ := hloads new hqv hqop
                    have eo := (memoryArg_load_two hqop hb).symm.trans hm
                    simp only [Except.ok.injEq, Option.some.injEq] at eo
                    subst eo
                    have hqop' : (f1.heap new).Op = Op.OpLoad := by rw [(hfields new).1, hqop]
                    rcases hc with ⟨hsm, -⟩ | ⟨n', hn', hw', -⟩
                    · rw [memoryArg_load_two hqop' hb', hsm]
                    · exfalso
                      have h1' : memChain f.heap new 1 = some o := by
                        rw [memChain_succ_left hm]
                        rfl
                      have := hw'.block 1 o (le_refl 1) hn' h1'
                      rw [hbf] at this
                      exact hmb this
                · rw [(hfields m).2.1, (hfields p).2.1]
                  exact hmb
          exact (walk_unique hn2 (le_refl 1) hw2 hs2 hw1 hs1).2
      subst hnew
      exact Value.eq_of_fields (hfields2 p).1 (hfields2 p).2.2.1 (hfields2 p).2.2.2
        (by rw [hargs2, hargs1]) (hfields2 p).2.1
  cases f2 with
  | mk bs2 hp2 =>
    cases f1 with
    | mk bs1 hp1 =>
      simp only at hblocks2 hheap
      rw [hblocks2, hheap]

/-- C11 (P6 idempotence).  On a well-formed function a first run of
`optimizeMemoryDependency` completes, a second run on its output completes too and
produces no further change: every value of the graph, and so the memory operand of
every Load, is after two runs what it was after one run. -/
theorem C11_idempotence (d : Disjoint) (fuel : Nat) (f : Func) (hwf : WellFormed f)
    (hfuel : EnoughFuel f fuel) :
    ∃ f' f'', optimizeMemoryDependency d fuel f = Except.ok f' ∧
      optimizeMemoryDependency d fuel f' = Except.ok f'' ∧
      f''.Blocks = f'.Blocks ∧ (∀ p, f''.heap p = f'.heap p) ∧
      ∀ r, (f.heap r).Op = Op.OpLoad → memoryArg (f''.heap r) = memoryArg (f'.heap r) := by
  obtain ⟨f', hrun, hrun'⟩ := pass_idempotent d fuel f hwf hfuel
  exact ⟨f', f', hrun, hrun', rfl, fun _ => rfl, fun _ _ => rfl⟩

/-- An instance of C11: in the test graph "late optimization check" the Load 7 has the
Store 5 as memory operand after one run and after two. -/
theorem C11_idempotence_witness :
    WellFormed lateFunc ∧ EnoughFuel lateFunc 8 ∧
    ∃ f' f'', optimizeMemoryDependency dAddr 8 lateFunc = Except.ok f' ∧
      optimizeMemoryDependency dAddr 8 f' = Except.ok f'' ∧
      memoryArg (f'.heap 7) = Except.ok (some 5) ∧
      memoryArg (f''.heap 7) = Except.ok (some 5) := by
  refine ⟨by decide, by decide, ?_⟩
  obtain ⟨f', f'', hrun, hrun', -, -, hsame⟩ :=
    C11_idempotence dAddr 8 lateFunc (by decide) (by decide)
  have h1 : memoryArg (f'.heap 7) = Except.ok (some 5) :=
    result_eval (fun g => memoryArg (g.heap 7)) hrun (by decide)
  exact ⟨f', f'', hrun, hrun', h1, (hsame 7 (by decide)).trans h1⟩

/-- A walk that can stop at step `n` cannot have gone further: every walked prefix of
the chain has at most `n` steps. -/
theorem walked_le_stop {d : Disjoint} {h : Heap} {load M M' : Ptr} {n n' : Nat}
    (hn : 1 ≤ n) (hw : Walked d h load n M) (hs : StopAt d h load M)
    (hw' : Walked d h load n' M') : n' ≤ n := by
  by_contra hlt
  have hab : n < n' := by omega
  obtain ⟨c, hc⟩ := memChain_defined_le hw'.reach (n + 1) (by omega)
  obtain ⟨A, hA, hAc⟩ := memChain_pred hc
  rw [hw.reach] at hA
  cases hA
  rcases hs with h1 | ⟨hst, hj⟩ | ⟨m, hm, hmb⟩
  · rw [h1] at hAc
    cases hAc
  · have := hw'.clear n M hn hab hw.reach hst
    rw [this] at hj
    cases hj
  · have e := hm.symm.trans hAc
    simp only [Except.ok.injEq, Option.some.injEq] at e
    subst e
    exact hmb (hw'.block (n + 1) m (by omega) (by omega) hc)

/-- C12 (furthest safe predecessor).  For every Load `r`: if `findOptMem(r)` returns
`M`, the walk cannot be extended past `M`, that is, `M` is a chain origin (neither Load
nor Store), or `M` is a Store that the oracle does not prove disjoint from `r`, or the
memory operand of `M` is owned by a different block than `r`; and `M` ends the longest
prefix of the memory chain of `r` that stays in the block of `r` and whose earlier
Stores are all judged disjoint from `r`.  On a graph satisfying the memory-chain
invariant `findOptMem(r)` does return. -/
theorem C12_furthest_safe_predecessor (d : Disjoint) (fuel : Nat) (f : Func) (r : Ptr)
    (hop : (f.heap r).Op = Op.OpLoad) :
    (∀ M, findOptMem d fuel f.heap r = Except.ok (some M) →
      (((f.heap M).Op ≠ Op.OpLoad ∧ (f.heap M).Op ≠ Op.OpStore) ∨
        ((f.heap M).Op = Op.OpStore ∧
          valueJoint d (f.heap r) (f.heap M) = Except.ok true) ∨
        ∃ m, memoryArg (f.heap M) = Except.ok (some m) ∧
          (f.heap m).Block ≠ (f.heap r).Block) ∧
      ∃ n, 1 ≤ n ∧ Walked d f.heap r n M ∧
        ∀ n' M', Walked d f.heap r n' M' → n' ≤ n) ∧
    (WellFormed f → EnoughFuel f fuel → r ∈ f.values →
      ∃ res, findOptMem d fuel f.heap r = Except.ok res) := by
  refine ⟨?_, ?_⟩
  · intro M hres
    obtain ⟨m, -, hcases⟩ := findOptMem_sound hop hres
    rcases hcases with ⟨hnone, -⟩ | ⟨-, n, M0, hn, hM, hw, hs⟩
    · cases hnone
    · simp only [Option.some.injEq] at hM
      subst hM
      refine ⟨?_, n, hn, hw, fun n' M' hw' => walked_le_stop hn hw hs hw'⟩
      rcases hs with h0 | h1 | h2
      · exact Or.inl (memoryArg_none_op h0)
      · exact Or.inr (Or.inl h1)
      · exact Or.inr (Or.inr h2)
  · intro hwf hfuel hr
    obtain ⟨b, hb, hrb⟩ := mem_allValues.mp hr
    exact findOptMem_total d f.heap b.Values fuel (hwf.2.2 b hb)
      (fun p hp => hwf.2.1 p (mem_allValues.mpr ⟨b, hb, hp⟩)) (hfuel b hb) hrb hop

/-- An instance of C12: in the test graph "late optimization check" the walk of the
Load 7 returns the Store 5, which is at the address of 7. -/
theorem C12_furthest_safe_predecessor_witness :
    (lateFunc.heap 7).Op = Op.OpLoad ∧
    findOptMem dAddr 8 lateFunc.heap 7 = Except.ok (some 5) ∧
    ((((lateFunc.heap 5).Op ≠ Op.OpLoad ∧ (lateFunc.heap 5).Op ≠ Op.OpStore) ∨
        ((lateFunc.heap 5).Op = Op.OpStore ∧
          valueJoint dAddr (lateFunc.heap 7) (lateFunc.heap 5) = Except.ok true) ∨
        ∃ m, memoryArg (lateFunc.heap 5) = Except.ok (some m) ∧
          (lateFunc.heap m).Block ≠ (lateFunc.heap 7).Block) ∧
      ∃ n, 1 ≤ n ∧ Walked dAddr lateFunc.heap 7 n 5 ∧
        ∀ n' M', Walked dAddr lateFunc.heap 7 n' M' → n' ≤ n) :=
  ⟨by decide, by decide,
    (C12_furthest_safe_predecessor dAddr 8 lateFunc 7 (by decide)).1 5 (by decide)⟩

/-- C17, the claim as stated fails: there is no well-formed function on which a second
run of the pass changes anything; whatever the oracle, the output of one run is left
as it is by a second run. -/
theorem C17_counterexample :
    ¬ ∃ (d : Disjoint) (fuel : Nat) (f f' f'' : Func),
      WellFormed f ∧ EnoughFuel f fuel ∧
      optimizeMemoryDependency d fuel f = Except.ok f' ∧
      optimizeMemoryDependency d fuel f' = Except.ok f'' ∧
      ∃ r, memoryArg (f''.heap r) ≠ memoryArg (f'.heap r) := by
  rintro ⟨d, fuel, f, f', f'', hwf, hfuel, hrun, hrun', r, hne⟩
  obtain ⟨g, hg, hg'⟩ := pass_idempotent d fuel f hwf hfuel
  have e : g = f' := Except.ok.inj (hg.symm.trans hrun)
  subst e
  have e' : g = f'' := Except.ok.inj (hg'.symm.trans hrun')
  subst e'
  exact hne rfl

/-- C17, amended: one run is enough.  On every well-formed function, and for every
oracle, the pass completes and its output is a fixed point: every completed second run
returns the same graph, so it changes the memory operand of no Load. -/
theorem C17_single_run_fixed_point (d : Disjoint) (fuel : Nat) (f : Func)
    (hwf : WellFormed f) (hfuel : EnoughFuel f fuel) :
    ∃ f', optimizeMemoryDependency d fuel f = Except.ok f' ∧
      WellFormed f' ∧ optimizeMemoryDependency d fuel f' = Except.ok f' ∧
      ∀ f'', optimizeMemoryDependency d fuel f' = Except.ok f'' →
        ∀ r, memoryArg (f''.heap r) = memoryArg (f'.heap r) := by
  obtain ⟨f', hrun, hrun'⟩ := pass_idempotent d fuel f hwf hfuel
  obtain ⟨g, hg, -, hwf'⟩ := pass_wellFormed d fuel f hwf hfuel
  have e : g = f' := Except.ok.inj (hg.symm.trans hrun)
  subst e
  refine ⟨g, hrun, hwf', hrun', ?_⟩
  intro f'' h2 r
  have e' : g = f'' := Except.ok.inj (hrun'.symm.trans h2)
  subst e'
  rfl

/-- An instance of amended C17: the test graph "mix change". -/
theorem C17_single_run_fixed_point_witness :
    WellFormed mixFunc ∧ EnoughFuel mixFunc 11 ∧
    ∃ f', optimizeMemoryDependency dAddr 11 mixFunc = Except.ok f' ∧
      WellFormed f' ∧ optimizeMemoryDependency dAddr 11 f' = Except.ok f' ∧
      ∀ f'', optimizeMemoryDependency dAddr 11 f' = Except.ok f'' →
        ∀ r, memoryArg (f''.heap r) = memoryArg (f'.heap r) :=
  ⟨by decide, by decide,
    C17_single_run_fixed_point dAddr 11 mixFunc (by decide) (by decide)⟩

theorem bind_ne_fatal {α β : Type} {x : Except Err α} {g : α → Except Err β}
    (hx : x ≠ Except.error Err.fatal) (hg : ∀ a, x = Except.ok a → g a ≠ Except.error Err.fatal) :
    (x >>= g) ≠ Except.error Err.fatal := by
  cases x with
  | error e =>
    intro h
    have he : e = Err.fatal := by
      injection (bind_error_eq e g).symm.trans h
    exact hx (by rw [he])
  | ok a => exact hg a rfl

theorem addrSize_ne_fatal {v : Value} (hop : v.Op = Op.OpLoad ∨ v.Op = Op.OpStore) :
    addrSize v ≠ Except.error Err.fatal := by
  unfold addrSize
  rcases hop with hop | hop
  · rw [hop]
    simp only
    cases v.Args.head? <;> simp
  · rw [hop]
    simp only
    cases v.Args.head? with
    | none => simp
    | some a => cases v.Aux <;> simp

theorem valueJoint_ne_fatal (d : Disjoint) {v1 v2 : Value}
    (h1 : v1.Op = Op.OpLoad ∨ v1.Op = Op.OpStore) (h2 : v2.Op = Op.OpLoad ∨ v2.Op = Op.OpStore) :
    valueJoint d v1 v2 ≠ Except.error Err.fatal := by
  unfold valueJoint
  refine bind_ne_fatal (addrSize_ne_fatal h1) (fun r1 _ => ?_)
  refine bind_ne_fatal (addrSize_ne_fatal h2) (fun r2 _ => ?_)
  intro h
  cases h

theorem memoryArg_ne_fatal (v : Value) : memoryArg v ≠ Except.error Err.fatal := by
  unfold memoryArg
  split
  · split <;> simp
  · split <;> simp
  · simp

theorem stopCheck_ne_fatal (d : Disjoint) (h : Heap) (load v : Ptr)
    (hop : (h load).Op = Op.OpLoad) : stopCheck d h load v ≠ Except.error Err.fatal := by
  unfold stopCheck
  by_cases hv : (h v).Op = Op.OpStore
  · rw [if_pos hv]
    exact valueJoint_ne_fatal d (Or.inl hop) (Or.inr hv)
  · rw [if_neg hv]
    intro h
    cases h

/-- The walk of a Load never reaches the fatal branch of `addrSize`. -/
theorem loop_ne_fatal (d : Disjoint) (h : Heap) (load : Ptr) (hop : (h load).Op = Op.OpLoad) :
    ∀ (fuel : Nat) (v : Ptr) (m opt : Option Ptr),
      findOptMemLoop d h load fuel v m opt ≠ Except.error Err.fatal := by
  intro fuel
  induction fuel with
  | zero =>
    intro v m opt
    cases m with
    | none => rw [loop_none]; intro h; cases h
    | some m0 => intro h; cases h
  | succ fuel ih =>
    intro v m opt
    cases m with
    | none => rw [loop_none]; intro h; cases h
    | some m0 =>
      rw [loop_step]
      refine bind_ne_fatal (stopCheck_ne_fatal d h load v hop) (fun stop _ => ?_)
      by_cases hs : stop = true
      · rw [if_pos hs]
        intro h
        cases h
      · rw [if_neg hs]
        by_cases hb : (h load).Block ≠ (h m0).Block
        · rw [if_pos hb]
          intro h
          cases h
        · rw [if_neg hb]
          exact bind_ne_fatal (memoryArg_ne_fatal _) (fun m' _ => ih m0 m' (some m0))

theorem findOptMem_ne_fatal (d : Disjoint) (fuel : Nat) (h : Heap) (load : Ptr)
    (hop : (h load).Op = Op.OpLoad) : findOptMem d fuel h load ≠ Except.error Err.fatal := by
  unfold findOptMem
  exact bind_ne_fatal (memoryArg_ne_fatal _) (fun m _ => loop_ne_fatal d h load hop fuel load m none)

theorem visitValue_ne_fatal (d : Disjoint) (fuel : Nat) (h : Heap) (v : Ptr) :
    visitValue d fuel h v ≠ Except.error Err.fatal := by
  unfold visitValue
  by_cases hop : (h v).Op = Op.OpLoad
  · rw [if_neg (by simpa using hop)]
    refine bind_ne_fatal (findOptMem_ne_fatal d fuel h v hop) (fun res _ => ?_)
    cases res with
    | none => intro h; cases h
    | some m =>
      simp only
      refine bind_ne_fatal (memoryArg_ne_fatal _) (fun cur _ => ?_)
      by_cases hne : some m ≠ cur
      · rw [if_pos hne]
        unfold SetArg
        by_cases hlen : 1 < (h v).Args.length
        · rw [if_pos hlen]
          intro h
          cases h
        · rw [if_neg hlen]
          intro h
          cases h
      · rw [if_neg hne]
        intro h
        cases h
  · rw [if_pos hop]
    intro h
    cases h

theorem visitValues_ne_fatal (d : Disjoint) (fuel : Nat) :
    ∀ (vs : List Ptr) (h : Heap), visitValues d fuel vs h ≠ Except.error Err.fatal := by
  intro vs
  induction vs with
  | nil => intro h e; cases e
  | cons v vs ih =>
    intro h
    rw [visitValues_cons]
    exact bind_ne_fatal (ih h) (fun h1 _ => visitValue_ne_fatal d fuel h1 v)

theorem visitBlocks_ne_fatal (d : Disjoint) (fuel : Nat) :
    ∀ (bs : List Block) (h : Heap), visitBlocks d fuel bs h ≠ Except.error Err.fatal := by
  intro bs
  induction bs with
  | nil => intro h e; cases e
  | cons b bs ih =>
    intro h
    rw [visitBlocks_cons]
    exact bind_ne_fatal (ih h) (fun h1 _ => visitValues_ne_fatal d fuel b.Values h1)

/-- C13 (no internal failure).  The pass never reaches the fatal branch of `addrSize`,
on any function and with any oracle: the walk of a Load applies `addrSize` only to that
Load and to Store values, so neither `findOptMem` of a Load nor the whole pass ends in
the fatal failure.  On a function whose Loads have the operands `[address, memory]`,
whose Stores have `[address, value, memory]` with a type as aux payload, and which
satisfies the chain invariant, the pass completes. -/
theorem C13_no_internal_failure (d : Disjoint) (fuel : Nat) (f : Func) :
    optimizeMemoryDependency d fuel f ≠ Except.error Err.fatal ∧
    (∀ r, (f.heap r).Op = Op.OpLoad →
      findOptMem d fuel f.heap r ≠ Except.error Err.fatal ∧
      addrSize (f.heap r) ≠ Except.error Err.fatal ∧
      ∀ v, (f.heap v).Op = Op.OpStore →
        valueJoint d (f.heap r) (f.heap v) ≠ Except.error Err.fatal) ∧
    (WellFormed f → EnoughFuel f fuel →
      ∃ f', optimizeMemoryDependency d fuel f = Except.ok f') := by
  refine ⟨?_, ?_, ?_⟩
  · unfold optimizeMemoryDependency
    refine bind_ne_fatal (visitBlocks_ne_fatal d fuel f.Blocks f.heap) (fun h _ => ?_)
    intro e
    cases e
  · intro r hop
    exact ⟨findOptMem_ne_fatal d fuel f.heap r hop, addrSize_ne_fatal (Or.inl hop),
      fun v hv => valueJoint_ne_fatal d (Or.inl hop) (Or.inr hv)⟩
  · intro hwf hfuel
    obtain ⟨f', hrun, -⟩ := pass_spec d fuel f hwf hfuel
    exact ⟨f', hrun⟩

/-- An instance of C13: on the test graph "mix change" the pass completes. -/
theorem C13_no_internal_failure_witness :
    optimizeMemoryDependency dAddr 11 mixFunc ≠ Except.error Err.fatal ∧
    ∃ f', optimizeMemoryDependency dAddr 11 mixFunc = Except.ok f' :=
  ⟨(C13_no_internal_failure dAddr 11 mixFunc).1,
    (C13_no_internal_failure dAddr 11 mixFunc).2.2 (by decide) (by decide)⟩

/-- A walk that has returned returns the same with one more unit of fuel. -/
theorem loop_fuel_succ (d : Disjoint) (h : Heap) (load : Ptr) :
    ∀ (fuel : Nat) (v : Ptr) (m opt res : Option Ptr),
      findOptMemLoop d h load fuel v m opt = Except.ok res →
      findOptMemLoop d h load (fuel + 1) v m opt = Except.ok res := by
  intro fuel
  induction fuel with
  | zero =>
    intro v m opt res hres
    cases m with
    | none =>
      rw [loop_none] at hres ⊢
      exact hres
    | some m0 => cases hres
  | succ fuel ih =>
    intro v m opt res hres
    cases m with
    | none =>
      rw [loop_none] at hres ⊢
      exact hres
    | some m0 =>
      rw [loop_step] at hres ⊢
      cases hs : stopCheck d h load v with
      | error e => rw [hs] at hres; cases hres
      | ok stop =>
        rw [hs, bind_ok_eq] at hres
        rw [bind_ok_eq]
        by_cases hst : stop = true
        · rw [if_pos hst] at hres ⊢
          exact hres
        · rw [if_neg hst] at hres ⊢
          by_cases hb : (h load).Block ≠ (h m0).Block
          · rw [if_pos hb] at hres ⊢
            exact hres
          · rw [if_neg hb] at hres ⊢
            cases hm' : memoryArg (h m0) with
            | error e => rw [hm'] at hres; cases hres
            | ok m' =>
              rw [hm', bind_ok_eq] at hres
              rw [bind_ok_eq]
              exact ih m0 m' (some m0) res hres

theorem findOptMem_fuel_le (d : Disjoint) (h : Heap) (load : Ptr) {fuel : Nat}
    {res : Option Ptr} (hres : findOptMem d fuel h load = Except.ok res) :
    ∀ fuel', fuel ≤ fuel' → findOptMem d fuel' h load = Except.ok res := by
  intro fuel' hle
  obtain ⟨k, rfl⟩ : ∃ k, fuel' = fuel + k := ⟨fuel' - fuel, by omega⟩
  clear hle
  induction k with
  | zero => exact hres
  | succ k ih =>
    unfold findOptMem at ih ⊢
    cases hm : memoryArg (h load) with
    | error e => rw [hm] at ih; cases ih
    | ok m =>
      rw [hm, bind_ok_eq] at ih
      rw [bind_ok_eq]
      exact loop_fuel_succ d h load (fuel + k) load m none res ih

theorem bind_ne_outOfFuel {α β : Type} {x : Except Err α} {g : α → Except Err β}
    (hx : x ≠ Except.error Err.outOfFuel)
    (hg : ∀ a, x = Except.ok a → g a ≠ Except.error Err.outOfFuel) :
    (x >>= g) ≠ Except.error Err.outOfFuel := by
  cases x with
  | error e =>
    intro h
    have he : e = Err.outOfFuel := by
      injection (bind_error_eq e g).symm.trans h
    exact hx (by rw [he])
  | ok a => exact hg a rfl

theorem addrSize_ne_outOfFuel (v : Value) : addrSize v ≠ Except.error Err.outOfFuel := by
  unfold addrSize
  split
  · split <;> simp
  · split
    · split <;> simp
    · simp
  · simp

theorem memoryArg_ne_outOfFuel (v : Value) : memoryArg v ≠ Except.error Err.outOfFuel := by
  unfold memoryArg
  split
  · split <;> simp
  · split <;> simp
  · simp

theorem stopCheck_ne_outOfFuel (d : Disjoint) (h : Heap) (load v : Ptr) :
    stopCheck d h load v ≠ Except.error Err.outOfFuel := by
  unfold stopCheck
  by_cases hv : (h v).Op = Op.OpStore
  · rw [if_pos hv]
    unfold valueJoint
    refine bind_ne_outOfFuel (addrSize_ne_outOfFuel _) (fun r1 _ => ?_)
    refine bind_ne_outOfFuel (addrSize_ne_outOfFuel _) (fun r2 _ => ?_)
    intro e
    cases e
  · rw [if_neg hv]
    intro e
    cases e

/-- Along a value list in definition-before-use order the walk standing at position `i`
does not run out of a budget larger than `i`. -/
theorem loop_ne_outOfFuel (d : Disjoint) (h : Heap) (load : Ptr) (vals : List Ptr)
    (hord : chainOrdered h vals) :
    ∀ (fuel i : Nat) (v : Ptr) (m opt : Option Ptr),
      vals[i]? = some v → (h v).Block = (h load).Block → memoryArg (h v) = Except.ok m →
      i < fuel → findOptMemLoop d h load fuel v m opt ≠ Except.error Err.outOfFuel := by
  intro fuel
  induction fuel with
  | zero => intro i v m opt _ _ _ hi; omega
  | succ fuel ih =>
    intro i v m opt hv hvb hm hi
    cases m with
    | none =>
      rw [loop_none]
      intro e
      cases e
    | some m0 =>
      rw [loop_step]
      refine bind_ne_outOfFuel (stopCheck_ne_outOfFuel d h load v) (fun stop _ => ?_)
      by_cases hs : stop = true
      · rw [if_pos hs]
        intro e
        cases e
      · rw [if_neg hs]
        by_cases hblk : (h load).Block ≠ (h m0).Block
        · rw [if_pos hblk]
          intro e
          cases e
        · rw [if_neg hblk]
          have hb' : (h m0).Block = (h load).Block := by
            by_contra hne
            exact hblk (fun e => hne e.symm)
          obtain ⟨k, hk, hkm⟩ := chainOrdered_step hord hv hm (hb'.trans hvb.symm)
          exact bind_ne_outOfFuel (memoryArg_ne_outOfFuel _)
            (fun m' hm' => ih k m0 m' (some m0) hkm hb' hm' (by omega))

/-- C14 (termination).  On a function in which every Load/Store's same-block memory
operand appears strictly earlier in its block's value list, the walk of `findOptMem`
from the value at position `j` of its block never needs more than `j + 1` iterations of
the loop.  When the function is moreover well-formed, the walk of every Load returns a
result within `j + 1` iterations, the same for every larger budget, and therefore
`optimizeMemoryDependency` completes over the whole function, with every budget that
covers the longest block. -/
theorem C14_termination (d : Disjoint) (f : Func) (hinv : memChainInvariant f) :
    (∀ b ∈ f.Blocks, ∀ (j : Nat) (r : Ptr), b.Values[j]? = some r →
      ∀ fuel, j + 1 ≤ fuel → findOptMem d fuel f.heap r ≠ Except.error Err.outOfFuel) ∧
    (WellFormed f →
      (∀ b ∈ f.Blocks, ∀ (j : Nat) (r : Ptr), b.Values[j]? = some r →
        (f.heap r).Op = Op.OpLoad →
        ∃ res, ∀ fuel, j + 1 ≤ fuel → findOptMem d fuel f.heap r = Except.ok res) ∧
      ∀ fuel, EnoughFuel f fuel →
        ∃ f', optimizeMemoryDependency d fuel f = Except.ok f') := by
  refine ⟨?_, fun hwf => ⟨?_, ?_⟩⟩
  · intro b hb j r hj fuel hle
    unfold findOptMem
    refine bind_ne_outOfFuel (memoryArg_ne_outOfFuel _) (fun m hm => ?_)
    exact loop_ne_outOfFuel d f.heap r b.Values (hinv b hb) fuel j r m none hj rfl hm
      (by omega)
  · intro b hb j r hj hop
    have hconv : ∀ p ∈ b.Values, operandConvention (f.heap p) = true := fun p hp =>
      hwf.2.1 p (mem_allValues.mpr ⟨b, hb, hp⟩)
    have hrb : r ∈ b.Values := mem_of_getElem_some hj
    obtain ⟨m, hm⟩ := memoryArg_total (hconv r hrb)
    obtain ⟨res, hres⟩ := loop_total d f.heap r b.Values (hwf.2.2 b hb) hconv hop hrb
      (j + 1) j r m none hj rfl hm (by omega)
    have hfind : findOptMem d (j + 1) f.heap r = Except.ok res := by
      unfold findOptMem
      rw [hm, bind_ok_eq]
      exact hres
    exact ⟨res, fun fuel hle => findOptMem_fuel_le d f.heap r hfind fuel hle⟩
  · intro fuel hfuel
    obtain ⟨f', hrun, -⟩ := pass_spec d fuel f hwf hfuel
    exact ⟨f', hrun⟩

/-- An instance of C14: the test graph "late optimization check"; the walk of the Load
7, at position 7 of its block, returns within 8 iterations, and the pass completes. -/
theorem C14_termination_witness :
    memChainInvariant lateFunc ∧
    (∃ res, ∀ fuel, 7 + 1 ≤ fuel → findOptMem dAddr fuel lateFunc.heap 7 = Except.ok res) ∧
    ∃ f', optimizeMemoryDependency dAddr 8 lateFunc = Except.ok f' :=
  ⟨by decide,
    ((C14_termination dAddr lateFunc (by decide)).2 (by decide)).1
      ⟨1, [0, 1, 2, 3, 4, 5, 6, 7]⟩ (by decide) 7 7 (by decide) (by decide),
    ((C14_termination dAddr lateFunc (by decide)).2 (by decide)).2 8 (by decide)⟩

/-- C15 (`addrSize` contract).  For a Load, `addrSize` returns (first operand, byte
size of its result type); for a Store it returns (first operand, byte size of the type
carried in its aux payload); for a value of any other kind it fails with the
process-fatal error and returns no region.  The fatal failure occurs if and only if the
kind is neither Load nor Store, and for a value that follows the operand convention of
its kind this is the only way `addrSize` fails. -/
theorem C15_addrSize_contract (v : Value) :
    (v.Op = Op.OpLoad → ∀ a, v.Args.head? = some a →
      addrSize v = Except.ok (a, v.Typ.Size)) ∧
    (v.Op = Op.OpStore → ∀ a t, v.Args.head? = some a → v.Aux = AuxVal.typ t →
      addrSize v = Except.ok (a, t.Size)) ∧
    (v.Op ≠ Op.OpLoad → v.Op ≠ Op.OpStore → addrSize v = Except.error Err.fatal) ∧
    (addrSize v = Except.error Err.fatal ↔ (v.Op ≠ Op.OpLoad ∧ v.Op ≠ Op.OpStore)) ∧
    (operandConvention v = true →
      ((∃ e, addrSize v = Except.error e) ↔ (v.Op ≠ Op.OpLoad ∧ v.Op ≠ Op.OpStore))) := by
  have hload : v.Op = Op.OpLoad → ∀ a, v.Args.head? = some a →
      addrSize v = Except.ok (a, v.Typ.Size) := by
    intro hop a ha
    unfold addrSize
    rw [hop, ha]
  have hstore : v.Op = Op.OpStore → ∀ a t, v.Args.head? = some a → v.Aux = AuxVal.typ t →
      addrSize v = Except.ok (a, t.Size) := by
    intro hop a t ha ht
    unfold addrSize
    rw [hop, ha, ht]
  have hother : v.Op ≠ Op.OpLoad → v.Op ≠ Op.OpStore → addrSize v = Except.error Err.fatal := by
    intro h1 h2
    unfold addrSize
    cases hop : v.Op <;> simp_all
  refine ⟨hload, hstore, hother, ?_, ?_⟩
  · constructor
    · intro he
      refine ⟨fun hop => ?_, fun hop => ?_⟩
      · exact addrSize_ne_fatal (Or.inl hop) he
      · exact addrSize_ne_fatal (Or.inr hop) he
    · rintro ⟨h1, h2⟩
      exact hother h1 h2
  · intro hc
    constructor
    · rintro ⟨e, he⟩
      refine ⟨fun hop => ?_, fun hop => ?_⟩
      · obtain ⟨r, hr⟩ := addrSize_load_total hop hc
        rw [hr] at he
        cases he
      · obtain ⟨r, hr⟩ := addrSize_store_total hop hc
        rw [hr] at he
        cases he
    · rintro ⟨h1, h2⟩
      exact ⟨Err.fatal, hother h1 h2⟩

/-- An instance of C15: the Store 5 of the test graph "late optimization check" writes 8
bytes at the address value 3. -/
theorem C15_addrSize_contract_witness :
    (lateHeap 5).Op = Op.OpStore ∧ addrSize (lateHeap 5) = Except.ok (3, 8) :=
  ⟨by decide,
    (C15_addrSize_contract (lateHeap 5)).2.1 (by decide) 3 i64 (by decide) (by decide)⟩

/-- C16 (`memoryArg` contract).  For every value `v` with at least one operand,
`memoryArg(v)` returns the last operand of `v` when the kind of `v` is Load or Store,
and nil for every other kind. -/
theorem C16_memoryArg_contract (v : Value) (hne : v.Args ≠ []) :
    (v.Op = Op.OpLoad ∨ v.Op = Op.OpStore →
      memoryArg v = Except.ok (some (v.Args.getLast hne))) ∧
    (v.Op ≠ Op.OpLoad → v.Op ≠ Op.OpStore → memoryArg v = Except.ok none) := by
  refine ⟨?_, fun h1 h2 => memoryArg_origin h1 h2⟩
  intro hop
  have hl : v.Args.getLast? = some (v.Args.getLast hne) := List.getLast?_eq_getLast _ hne
  unfold memoryArg
  rcases hop with hop | hop <;> rw [hop] <;> simp only [hl]

/-- An instance of C16: the Store 5 of the test graph "late optimization check" has the
operands `[3, 2, 0]`, and `memoryArg` returns its last operand 0. -/
theorem C16_memoryArg_contract_witness :
    (lateHeap 5).Args ≠ [] ∧ memoryArg (lateHeap 5) = Except.ok (some 0) :=
  ⟨by decide, (C16_memoryArg_contract (lateHeap 5) (by decide)).1 (Or.inr (by decide))⟩

/-- C18, the claim as stated fails: in the test graph "late optimization check" under
the oracle that proves nothing disjoint, the Load 6 has the Store 5 of its own block as
memory operand and `valueJoint` is true, yet `findOptMem` returns the Store 5, not
nil. -/
theorem C18_counterexample :
    (lateFunc.heap 6).Op = Op.OpLoad ∧
    memoryArg (lateFunc.heap 6) = Except.ok (some 5) ∧
    (lateFunc.heap 5).Op = Op.OpStore ∧
    valueJoint dNever (lateFunc.heap 6) (lateFunc.heap 5) = Except.ok true ∧
    findOptMem dNever 8 lateFunc.heap 6 = Except.ok (some 5) ∧
    findOptMem dNever 8 lateFunc.heap 6 ≠ Except.ok none := by
  decide

/-- C18 (no-improvement result), amended.  For every Load `r` whose memory operand `m`
is a Store that may alias `r` (`valueJoint` is true): when `m` is owned by the block of
`r`, `findOptMem(r)` returns `m` itself, the candidate recorded in the first iteration;
it returns nil when `m` is owned by a different block. -/
theorem C18_no_improvement_result (d : Disjoint) (fuel : Nat) (h : Heap) (r m : Ptr)
    (hop : (h r).Op = Op.OpLoad) (hm : memoryArg (h r) = Except.ok (some m))
    (hst : (h m).Op = Op.OpStore) (hj : valueJoint d (h r) (h m) = Except.ok true) :
    ((h m).Block = (h r).Block → findOptMem d (fuel + 2) h r = Except.ok (some m)) ∧
    ((h m).Block ≠ (h r).Block → findOptMem d (fuel + 1) h r = Except.ok none) := by
  have hns : stopCheck d h r r = Except.ok false :=
    stopCheck_not_store (by rw [hop]; decide)
  refine ⟨?_, ?_⟩
  · intro hb
    -- the Store has operands, since its region could be read
    have hargs : ∃ m', memoryArg (h m) = Except.ok (some m') := by
      unfold valueJoint at hj
      cases h1 : addrSize (h r) with
      | error e => rw [h1] at hj; cases hj
      | ok r1 =>
        rw [h1, bind_ok_eq] at hj
        cases h2 : addrSize (h m) with
        | error e => rw [h2] at hj; cases hj
        | ok r2 =>
          unfold addrSize at h2
          rw [hst] at h2
          simp only at h2
          cases hl : (h m).Args with
          | nil => rw [hl] at h2; simp at h2
          | cons a as =>
            refine ⟨(a :: as).getLast (by simp), ?_⟩
            unfold memoryArg
            rw [hst, hl]
            simp only [List.getLast?_eq_getLast _ (List.cons_ne_nil a as)]
    obtain ⟨m', hm'⟩ := hargs
    have hs : stopCheck d h r m = Except.ok true := by
      unfold stopCheck
      rw [if_pos hst]
      exact hj
    unfold findOptMem
    rw [hm, bind_ok_eq, loop_step, hns, bind_ok_eq]
    simp only [Bool.false_eq_true, if_false]
    rw [if_neg (fun hne => hne hb.symm), hm', bind_ok_eq, loop_step, hs, bind_ok_eq]
    rfl
  · intro hb
    unfold findOptMem
    rw [hm, bind_ok_eq, loop_step, hns, bind_ok_eq]
    simp only [Bool.false_eq_true, if_false]
    rw [if_pos (fun e => hb e.symm)]
    rfl

/-- An instance of amended C18: the Load 6 of the test graph "late optimization check"
under the oracle that proves nothing disjoint. -/
theorem C18_no_improvement_result_witness :
    findOptMem dNever (0 + 2) lateFunc.heap 6 = Except.ok (some 5) :=
  (C18_no_improvement_result dNever 0 lateFunc.heap 6 5 (by decide) (by decide) (by decide)
    (by decide)).1 (by decide)

theorem valueJoint_eq (d : Disjoint) {v1 v2 : Value} {a1 a2 : Ptr} {s1 s2 : Int}
    (h1 : addrSize v1 = Except.ok (a1, s1)) (h2 : addrSize v2 = Except.ok (a2, s2)) :
    valueJoint d v1 v2 = Except.ok (!d a1 s1 a2 s2) := by
  unfold valueJoint
  rw [h1, h2]
  rfl

theorem valueJoint_ok {d : Disjoint} {v1 v2 : Value} {b : Bool}
    (h : valueJoint d v1 v2 = Except.ok b) :
    ∃ a1 s1 a2 s2, addrSize v1 = Except.ok (a1, s1) ∧ addrSize v2 = Except.ok (a2, s2) ∧
      b = !d a1 s1 a2 s2 := by
  cases h1 : addrSize v1 with
  | error e =>
    unfold valueJoint at h
    rw [h1] at h
    cases h
  | ok r1 =>
    cases h2 : addrSize v2 with
    | error e =>
      unfold valueJoint at h
      rw [h1, h2] at h
      cases h
    | ok r2 =>
      obtain ⟨a1, s1⟩ := r1
      obtain ⟨a2, s2⟩ := r2
      rw [valueJoint_eq d h1 h2] at h
      exact ⟨a1, s1, a2, s2, rfl, rfl, (Except.ok.inj h).symm⟩

theorem valueJoint_mono {d1 d2 : Disjoint}
    (hle : ∀ a1 s1 a2 s2, d1 a1 s1 a2 s2 = true → d2 a1 s1 a2 s2 = true) {v1 v2 : Value}
    (h1 : valueJoint d1 v1 v2 = Except.ok false) : valueJoint d2 v1 v2 = Except.ok false := by
  obtain ⟨a1, s1, a2, s2, ha, hb, hd⟩ := valueJoint_ok h1
  rw [valueJoint_eq d2 ha hb]
  have hd1 : d1 a1 s1 a2 s2 = true := by
    cases hx : d1 a1 s1 a2 s2 with
    | true => rfl
    | false => rw [hx] at hd; cases hd
  rw [hle _ _ _ _ hd1]
  rfl

theorem Walked.mono {d1 d2 : Disjoint}
    (hle : ∀ a1 s1 a2 s2, d1 a1 s1 a2 s2 = true → d2 a1 s1 a2 s2 = true) {h : Heap}
    {load v : Ptr} {k : Nat} (hw : Walked d1 h load k v) : Walked d2 h load k v :=
  ⟨hw.reach, hw.block, fun i c h1 h2 hc hst => valueJoint_mono hle (hw.clear i c h1 h2 hc hst)⟩

theorem valueJoint_dNever_ne (v1 v2 : Value) : valueJoint dNever v1 v2 ≠ Except.ok false := by
  intro h
  obtain ⟨a1, s1, a2, s2, -, -, hd⟩ := valueJoint_ok h
  simp [dNever] at hd

/-- C19 (monotone in the oracle).  On a well-formed function, for every Load `r` and
any two oracles `d1`, `d2` such that `d2` proves disjoint every pair `d1` proves
disjoint: `findOptMem(r)` returns under both, and the value returned under `d2` is
equal to, or reachable along the memory chain from, the value returned under `d1` (nil
under `d1` only when nil under `d2`).  With the oracle that proves nothing disjoint the
pass completes and moves no Load's memory operand past a Store: no value on the chain
from the original operand up to the new one, the new one excepted, is a Store. -/
theorem C19_monotone_in_oracle (d1 d2 : Disjoint) (fuel : Nat) (f : Func)
    (hwf : WellFormed f) (hfuel : EnoughFuel f fuel)
    (hle : ∀ a1 s1 a2 s2, d1 a1 s1 a2 s2 = true → d2 a1 s1 a2 s2 = true) :
    (∀ r ∈ f.values, (f.heap r).Op = Op.OpLoad →
      ∃ res1 res2, findOptMem d1 fuel f.heap r = Except.ok res1 ∧
        findOptMem d2 fuel f.heap r = Except.ok res2 ∧
        (res1 = none → res2 = none) ∧
        ∀ M1, res1 = some M1 → ∃ M2 k, res2 = some M2 ∧ memChain f.heap M1 k = some M2) ∧
    ∃ f', optimizeMemoryDependency dNever fuel f = Except.ok f' ∧
      ∀ r ∈ f.values, (f.heap r).Op = Op.OpLoad →
        ∀ orig M, memoryArg (f.heap r) = Except.ok (some orig) →
          memoryArg (f'.heap r) = Except.ok (some M) →
          ∀ n, memChain f.heap orig n = some M →
            (∀ k, k < n → memChain f.heap orig k ≠ some M) →
            ∀ i, i < n → ∀ W ∈ memChain f.heap orig i, (f.heap W).Op ≠ Op.OpStore := by
  refine ⟨?_, ?_⟩
  · intro r hr hop
    obtain ⟨b, hb, hrb⟩ := mem_allValues.mp hr
    have hconv : ∀ p ∈ b.Values, operandConvention (f.heap p) = true := fun p hp =>
      hwf.2.1 p (mem_allValues.mpr ⟨b, hb, hp⟩)
    obtain ⟨res1, hres1⟩ :=
      findOptMem_total d1 f.heap b.Values fuel (hwf.2.2 b hb) hconv (hfuel b hb) hrb hop
    obtain ⟨res2, hres2⟩ :=
      findOptMem_total d2 f.heap b.Values fuel (hwf.2.2 b hb) hconv (hfuel b hb) hrb hop
    refine ⟨res1, res2, hres1, hres2, ?_⟩
    obtain ⟨m1, hm1, hc1⟩ := findOptMem_sound hop hres1
    obtain ⟨m2, hm2, hc2⟩ := findOptMem_sound hop hres2
    have e := hm1.symm.trans hm2
    simp only [Except.ok.injEq, Option.some.injEq] at e
    subst e
    rcases hc1 with ⟨hnone1, hblk1⟩ | ⟨hblk1, n1, M1, hn1, hM1, hw1, hs1⟩
    · refine ⟨fun _ => ?_, fun M hM => ?_⟩
      · rcases hc2 with ⟨hnone2, -⟩ | ⟨hblk2, -⟩
        · exact hnone2
        · exact absurd hblk2 hblk1
      · rw [hnone1] at hM
        cases hM
    · rcases hc2 with ⟨-, hblk2⟩ | ⟨-, n2, M2, hn2, hM2, hw2, hs2⟩
      · exact absurd hblk1 hblk2
      · refine ⟨fun h0 => ?_, fun M hM => ?_⟩
        · rw [hM1] at h0
          cases h0
        · rw [hM1] at hM
          simp only [Option.some.injEq] at hM
          subst hM
          have hle' : n1 ≤ n2 := walked_le_stop hn2 hw2 hs2 (hw1.mono hle)
          refine ⟨M2, n2 - n1, hM2, ?_⟩
          have hadd := memChain_add n1 r M1 (n2 - n1) hw1.reach
          have e2 : n1 + (n2 - n1) = n2 := by omega
          rw [e2, hw2.reach] at hadd
          exact hadd.symm
  · obtain ⟨f', hrun, -, hfields, -, hloads⟩ := pass_walk dNever fuel f hwf hfuel
    refine ⟨f', hrun, ?_⟩
    intro r hr hop orig M horig hM n hn hfirst i hin W hW hst
    have hW' : memChain f.heap orig i = some W := hW
    obtain ⟨a, orig', new, hargs, hargs', hcases⟩ := hloads r hr hop
    have hop' : (f'.heap r).Op = Op.OpLoad := by rw [(hfields r).1, hop]
    have e1 := (memoryArg_load_two hop hargs).symm.trans horig
    have e2 := (memoryArg_load_two hop' hargs').symm.trans hM
    simp only [Except.ok.injEq, Option.some.injEq] at e1 e2
    subst e1
    subst e2
    rcases hcases with ⟨hsame, -⟩ | ⟨n0, hn0, hw, -⟩
    · subst hsame
      have hn0 : n = 0 := by
        by_contra hne
        exact hfirst 0 (by omega) rfl
      omega
    · obtain ⟨n1, rfl⟩ : ∃ n1, n0 = n1 + 1 := ⟨n0 - 1, by omega⟩
      have hreach := hw.reach
      rw [memChain_succ_left horig] at hreach
      have hle' : n ≤ n1 := by
        by_contra hlt
        exact hfirst n1 (by omega) hreach
      have hWr : memChain f.heap r (i + 1) = some W := by
        rw [memChain_succ_left horig]
        exact hW'
      exact valueJoint_dNever_ne _ _ (hw.clear (i + 1) W (by omega) (by omega) hWr hst)

/-- An instance of C19: the test graph "late optimization check", with the oracle that
proves nothing disjoint below the address-comparing oracle. -/
theorem C19_monotone_in_oracle_witness :
    WellFormed lateFunc ∧ EnoughFuel lateFunc 8 ∧
    (∀ a1 s1 a2 s2, dNever a1 s1 a2 s2 = true → dAddr a1 s1 a2 s2 = true) ∧
    ∃ res1 res2, findOptMem dNever 8 lateFunc.heap 6 = Except.ok res1 ∧
      findOptMem dAddr 8 lateFunc.heap 6 = Except.ok res2 ∧
      (res1 = none → res2 = none) ∧
      ∀ M1, res1 = some M1 → ∃ M2 k, res2 = some M2 ∧ memChain lateFunc.heap M1 k = some M2 :=
  ⟨by decide, by decide, fun _ _ _ _ h => Bool.noConfusion h,
    (C19_monotone_in_oracle dNever dAddr 8 lateFunc (by decide) (by decide)
      (fun _ _ _ _ h => Bool.noConfusion h)).1 6 (by decide) (by decide)⟩

end optmem
